import Mathlib

/-!
Shallow embedding of the weekly seat-allocation engine of this repository
(`modules/seats.py`, together with `filter_minimum_deficits` from `app.py`)
and proofs of the specification claims about it.

Modelling conventions:
* Python `dict`s keyed by team name are association lists `List (String × ℤ)`
  built only through `dset` (update the first occurrence in place, append when
  the key is fresh), which is exactly Python's insertion-ordered dict for the
  duplicate-free key lists the engine builds; `dget` mirrors `d.get(k, 0)`.
* Numbers: the engine does exact integer arithmetic, and rational arithmetic
  for percentages and the score, on small values; `ℤ`/`ℚ` stand for Python
  `int`/`float`, and `round(x, 2)` is modelled as exact half-even rounding at
  two decimals.
* `random.Random(seed)` is modelled as an explicitly threaded deterministic
  generator `Rng` (a linear congruential step).  No proved property depends on
  the concrete values the generator yields, only on its determinism and on the
  fact that it is threaded explicitly, which mirrors the source.
* The free-text rule parser `parse_full_day_rule` is abstracted to its output:
  the engine input carries the parsed full-day rule map keyed by normalized
  team name, which is what `compute_distribution_from_excel` builds from the
  parameter table before using it.
* Pandas cells are modelled by `Cell` (NaN, a numeric value, or non-numeric
  text); floor labels are modelled through their string form, and
  `extract_clean_number_str` by extraction of the first digit run (the float
  fast path of the source agrees with it on integer-formatted labels).
* Team names and column headers are carried as the stripped strings the code
  compares; the constant `formula`/`explicacion` strings attached to every
  deficit record are not modelled (no claim mentions them).
-/

set_option maxRecDepth 2000

/-- The five working days handled by the engine (`dias_semana`). -/
inductive Day : Type where
  | lunes : Day
  | martes : Day
  | miercoles : Day
  | jueves : Day
  | viernes : Day
  deriving DecidableEq, Inhabited

/-- `dias_semana = ["Lunes", "Martes", "Miércoles", "Jueves", "Viernes"]`. -/
def diasSemana : List Day := [.lunes, .martes, .miercoles, .jueves, .viernes]

/-- Display name of a day, as the Python strings. -/
def dayName : Day → String
  | .lunes => "Lunes"
  | .martes => "Martes"
  | .miercoles => "Miércoles"
  | .jueves => "Jueves"
  | .viernes => "Viernes"

/-- A Python dict keyed by team name with integer values, as an
insertion-ordered association list. -/
abbrev Dict := List (String × ℤ)

/-- `d.get(k, 0)`: value at the first occurrence of the key, default 0. -/
def dget : Dict → String → ℤ
  | [], _ => 0
  | p :: m, k => if p.1 = k then p.2 else dget m k

/-- `d[k] = v`: replace the value at the first occurrence of the key, or
append the pair when the key is absent. -/
def dset : Dict → String → ℤ → Dict
  | [], k, v => [(k, v)]
  | p :: m, k, v => if p.1 = k then (k, v) :: m else p :: dset m k v

/-- Sum of all values of the dict (`sum(d.values())`). -/
def dsum (m : Dict) : ℤ := (m.map (·.2)).sum

/-- The key list of the dict, in insertion order. -/
def dkeys (m : Dict) : List String := m.map (·.1)

/-- Lookup returning `none` when the key is absent (`k in d` plus `d[k]`). -/
def dfind : Dict → String → Option ℤ
  | [], _ => none
  | p :: m, k => if p.1 = k then some p.2 else dfind m k

/-- A rational-valued dict (used for the weekly usage percentages). -/
abbrev QDict := List (String × ℚ)

/-- `d.get(k, 0.0)` on a rational-valued dict. -/
def qget : QDict → String → ℚ
  | [], _ => 0
  | p :: m, k => if p.1 = k then p.2 else qget m k

/-- Deterministic pseudo-random generator modelling a seeded
`random.Random` instance.  The linear congruential step stands for the
source's Mersenne Twister; every result proved below is independent of the
concrete values drawn. -/
structure Rng : Type where
  state : ℕ
  deriving DecidableEq, Inhabited

/-- One raw draw of the generator. -/
def Rng.next (r : Rng) : ℕ × Rng :=
  let s := (r.state * 6364136223846793005 + 1442695040888963407) % (2 ^ 64)
  (s, ⟨s⟩)

/-- A draw uniform below `n` (`random._randbelow`). -/
def Rng.randBelow (r : Rng) (n : ℕ) : ℕ × Rng :=
  let p := r.next
  (p.1 % max 1 n, p.2)

/-- `rng.random()`: a rational in `[0, 1)`. -/
def Rng.randFloat (r : Rng) : ℚ × Rng :=
  let p := r.next
  (((p.1 % 2 ^ 53 : ℕ) : ℚ) / (2 ^ 53 : ℚ), p.2)

/-- `rng.choice(seq)`; the source only calls it on nonempty sequences. -/
def Rng.choice {α : Type} (r : Rng) (l : List α) : Option α × Rng :=
  if l.isEmpty then (none, r)
  else
    let p := r.randBelow l.length
    (l.get? p.1, p.2)

/-- Swap two positions of a list (helper for the Fisher–Yates shuffle). -/
def listSwap {α : Type} (l : List α) (i j : ℕ) : List α :=
  match l.get? i, l.get? j with
  | some a, some b => (l.set i b).set j a
  | _, _ => l

/-- Fisher–Yates loop of `random.shuffle`, from index `i+1` down to 1. -/
def shuffleGo {α : Type} : ℕ → List α → Rng → List α × Rng
  | 0, l, r => (l, r)
  | i + 1, l, r =>
    let p := r.randBelow (i + 2)
    shuffleGo i (listSwap l (i + 1) p.1) p.2

/-- `rng.shuffle(x)` returning the shuffled list. -/
def Rng.shuffle {α : Type} (r : Rng) (l : List α) : List α × Rng :=
  shuffleGo (l.length - 1) l r

/-- `random.Random(variant_seed if variant_seed is not None else 0)`. -/
def Rng.ofSeed (seed : Option ℤ) : Rng := ⟨(seed.getD 0).natAbs⟩

/-- A pandas cell as the engine observes it: NaN, a numeric value, or
non-numeric text (on which `float(...)` raises). -/
inductive Cell : Type where
  | nan : Cell
  | num : ℚ → Cell
  | other : Cell
  deriving DecidableEq, Inhabited

/-- Kernel-computable floor of a rational. -/
def ratFloor (q : ℚ) : ℤ := q.num / q.den

theorem ratFloor_eq (q : ℚ) : ratFloor q = ⌊q⌋ := Rat.floor_def.symm

/-- Kernel-computable embedding of an integer into `ℚ` (definitionally a
reduced fraction, unlike the unary `Int.cast` path). -/
def intQ (n : ℤ) : ℚ := ⟨n, 1, one_ne_zero, Nat.coprime_one_right _⟩

theorem intQ_eq (n : ℤ) : intQ n = (n : ℚ) := by
  apply Rat.ext <;> simp [intQ]

/-- Truncation toward zero, Python's `int(float)`. -/
def ratTrunc (q : ℚ) : ℤ := if 0 ≤ q then ratFloor q else -ratFloor (-q)

/-- `int(float(str(cell).replace(",", ".")))` with `except: 0`
(NaN and non-numeric text both raise inside `int`). -/
def cellToInt (c : Cell) : ℤ :=
  match c with
  | .num q => ratTrunc q
  | _ => 0

/-- Same parse but propagating failure (used for capacity rows, where the
`except` clause skips the row). -/
def cellToIntOpt (c : Cell) : Option ℤ :=
  match c with
  | .num q => some (ratTrunc q)
  | _ => none

/-- `fillna(0).astype(float)` on a single cell whose text form is numeric. -/
def cellFillna (c : Cell) : ℚ :=
  match c with
  | .num q => q
  | _ => 0

/-- Whether `astype(float)` succeeds on the cell (it raises on text). -/
def cellFloatOk (c : Cell) : Bool :=
  match c with
  | .other => false
  | _ => true

/-- Accent/separator replacement table of `normalize_text`, applied after
lower-casing (Lean's `Char.toLower` is ASCII-only, so the accented capitals
are mapped here directly, matching Python's `str.lower`). -/
def replChar (c : Char) : Char :=
  if c = 'á' ∨ c = 'Á' then 'a'
  else if c = 'é' ∨ c = 'É' then 'e'
  else if c = 'í' ∨ c = 'Í' then 'i'
  else if c = 'ó' ∨ c = 'Ó' then 'o'
  else if c = 'ú' ∨ c = 'Ú' then 'u'
  else if c = 'ñ' ∨ c = 'Ñ' then 'n'
  else if c = '/' ∨ c = '-' then ' '
  else c.toLower

/-- Python `str.strip()` on a character list. -/
def pyStripList (l : List Char) : List Char :=
  ((l.dropWhile Char.isWhitespace).reverse.dropWhile Char.isWhitespace).reverse

/-- `re.sub(r"\s+", " ", ·)`: collapse whitespace runs into single spaces. -/
def squeezeGo : Bool → List Char → List Char
  | _, [] => []
  | prevWs, c :: rest =>
    if c.isWhitespace then
      if prevWs then squeezeGo true rest else ' ' :: squeezeGo true rest
    else c :: squeezeGo false rest

/-- `normalize_text`: strip, lower-case, replace accents and `/`, `-` by
spaces, collapse whitespace. -/
def normalizeText (s : String) : String :=
  if s = "" then ""
  else ⟨squeezeGo false ((pyStripList s.toList).map replChar)⟩

/-- Python's `needle in hay` substring test. -/
def strContains (hay needle : String) : Bool :=
  hay.toList.tails.any (fun t => needle.toList.isPrefixOf t)

/-- First maximal digit run of a string (`re.findall(r"\d+", s)[0]`). -/
def firstDigitRun : List Char → List Char
  | [] => []
  | c :: rest => if c.isDigit then c :: rest.takeWhile Char.isDigit else firstDigitRun rest

/-- Digits to a natural number (`int(...)` on a digit string). -/
def digitsToNat (l : List Char) : ℕ :=
  l.foldl (fun n c => n * 10 + (c.toNat - '0'.toNat)) 0

/-- `extract_clean_number_str`: canonical numeric floor label, or `none`.
The float fast path of the source agrees with digit-run extraction on
integer-formatted labels; non-canonical inputs (negative or scientific
notation) are outside every claim. -/
def extractNum (s : String) : Option String :=
  let run := firstDigitRun s.toList
  if run.isEmpty then none else some (toString (digitsToNat run))

/-- First-occurrence-preserving deduplication (`pandas.Series.unique`). -/
def pyUnique : List String → List String
  | [] => []
  | s :: rest => s :: (pyUnique rest).filter (fun t => ¬ (t = s))

/-- A parsed full-day rule (`parse_full_day_rule` output, `none` dropped). -/
inductive Rule : Type where
  | fixedDays : List Day → Rule
  | choiceDays : List Day → Rule
  deriving DecidableEq, Inhabited

/-- `reglas_full_day.get(name)`. -/
def lookupRule (reglas : List (String × Rule)) (k : String) : Option Rule :=
  (reglas.find? (fun p => p.1 == k)).map (·.2)

/-- Half-even rounding of a rational to an integer (Python's `round`). -/
def roundHalfEvenInt (q : ℚ) : ℤ :=
  let f := ratFloor q
  let r := q - intQ f
  if r < 1 / 2 then f
  else if 1 / 2 < r then f + 1
  else if 2 ∣ f then f else f + 1

/-- Python `round(x, 2)`. -/
def pythonRound2 (q : ℚ) : ℚ := intQ (roundHalfEvenInt (q * 100)) / 100

/-- Modelled from the spec: `round_half_up` ("round-half-up: 4.5 → 5"),
used by claim C10 to compare against the code's reported daily average. -/
def roundHalfUp (q : ℚ) : ℤ := ratFloor (q + 1 / 2)


/-- One output row of `compute_distribution_from_excel` (`rows.append({...})`);
`dotacion`/`% uso` fields are `None` on the reserved-pool rows. -/
structure Row : Type where
  piso : String
  equipo : String
  dia : Day
  dotacion : Option ℤ
  cupos : ℤ
  usoDiario : Option ℚ
  usoSemanal : Option ℚ
  deriving DecidableEq, Inhabited

/-- One deficit record (`deficit_report.append({...})`); `causa` is the extra
field added by `filter_minimum_deficits`, absent on engine records. -/
structure DeficitRow : Type where
  piso : String
  equipo : String
  dia : Day
  dotacion : ℤ
  minimo : ℤ
  asignado : ℤ
  deficit : ℤ
  causa : Option String
  deriving DecidableEq, Inhabited

/-- One `audit["full_day_choices"]` entry. -/
structure ChoiceEntry : Type where
  piso : String
  equipo : String
  ruleText : String
  chosenDay : Day
  mode : String
  deriving DecidableEq, Inhabited

/-- One `audit["weekly_summary"]` entry. -/
structure SummaryEntry : Type where
  piso : String
  equipo : String
  dotacion : ℤ
  cuposSemana : ℤ
  cuposPromedioDiario : ℚ
  usoSemanal : ℚ
  deriving DecidableEq, Inhabited

/-- The `audit` dict returned by the engine.  Its only list-valued entries are
`full_day_choices` and `weekly_summary`. -/
structure Audit : Type where
  variantSeed : Option ℤ
  variantMode : String
  fullDayChoices : List ChoiceEntry
  weeklySummary : List SummaryEntry
  deriving DecidableEq, Inhabited

/-- The shapes taken by the `details` dict of the score object: `{}` on an
empty roster, `{"error": ...}` on missing columns, and the full metric dict
otherwise. -/
inductive ScoreDetails : Type where
  | emptyDetails : ScoreDetails
  | errorDetails : String → ScoreDetails
  | okDetails : ℚ → ℤ → ℤ → ℕ → ScoreDetails
  deriving DecidableEq, Inhabited

/-- The score object (`{"score": ..., "details": {...}}`). -/
structure ScoreObj : Type where
  score : ℚ
  details : ScoreDetails
  deriving DecidableEq, Inhabited

/-- The quadruple returned by `compute_distribution_from_excel`. -/
structure RunResult : Type where
  rows : List Row
  deficits : List DeficitRow
  audit : Audit
  score : ScoreObj
  deriving DecidableEq, Inhabited

/-- One roster row, carrying the cells the engine reads from the detected
columns: the raw floor label (string form, `none` for NaN), the stripped team
name, and the headcount/minimum cells. -/
structure RosterRow : Type where
  piso : Option String
  equipo : String
  personas : Cell
  minimo : Cell
  deriving DecidableEq, Inhabited

/-- One capacity-table row (`row.iloc[0]`, `row.iloc[1]`). -/
structure CapRow : Type where
  piso : Option String
  cap : Cell
  deriving DecidableEq, Inhabited

/-- The whole input of `compute_distribution_from_excel`: the roster table
(header plus rows), the parsed full-day rule map (see the header comment),
the capacity table, and the configuration arguments. -/
structure EngineInput : Type where
  equiposCols : List String
  equiposRows : List RosterRow
  reglas : List (String × Rule)
  capacidades : List CapRow
  cuposReserva : Option ℤ
  ignoreParams : Bool
  variantSeed : Option ℤ
  variantMode : String
  deriving DecidableEq, Inhabited

/-- One `equipos_info` entry: team name, clamped headcount `per`, and the
effective minimum `mini = min(per, max(2, mini_raw) if per >= 2 else
mini_raw)`. -/
structure TeamInfo : Type where
  eq : String
  per : ℤ
  mini : ℤ
  deriving DecidableEq, Inhabited

/-- The five per-day team dicts (`day_alloc`). -/
structure WeekAlloc : Type where
  lun : Dict
  mar : Dict
  mie : Dict
  jue : Dict
  vie : Dict
  deriving DecidableEq, Inhabited

/-- `day_alloc[d]`. -/
def WeekAlloc.get (w : WeekAlloc) : Day → Dict
  | .lunes => w.lun
  | .martes => w.mar
  | .miercoles => w.mie
  | .jueves => w.jue
  | .viernes => w.vie

/-- Replace one day's dict. -/
def WeekAlloc.set (w : WeekAlloc) (d : Day) (m : Dict) : WeekAlloc :=
  match d with
  | .lunes => { w with lun := m }
  | .martes => { w with mar := m }
  | .miercoles => { w with mie := m }
  | .jueves => { w with jue := m }
  | .viernes => { w with vie := m }

/-- Apply a day-indexed transformation to every day's dict. -/
def WeekAlloc.mapD (w : WeekAlloc) (f : Day → Dict → Dict) : WeekAlloc :=
  ⟨f .lunes w.lun, f .martes w.mar, f .miercoles w.mie, f .jueves w.jue, f .viernes w.vie⟩

/-- The all-empty week (`{d: {} for d in dias_semana}`). -/
def WeekAlloc.empty : WeekAlloc := ⟨[], [], [], [], []⟩

/-- `saint_lague_allocate`: quotient of a team, `w / (2a + 1)` with the
sentinel `-1e18` on non-positive weight. -/
def slQuotient (weights current alloc : Dict) (k : String) : ℚ :=
  let a := dget current k + dget alloc k
  let w := dget weights k
  if w ≤ 0 then -intQ (10 ^ 18) else intQ w / intQ (2 * a + 1)

/-- One candidate list of the Sainte-Laguë loop: positive-weight teams not yet
at their cap, paired with their current quotient. -/
def slCandidates (weights current alloc : Dict) (caps : Option Dict) : List (ℚ × String) :=
  weights.filterMap (fun p =>
    if p.2 ≤ 0 then none
    else if (match caps with
             | some cp => decide (dget cp p.1 ≤ dget alloc p.1)
             | none => false) then none
    else some (slQuotient weights current alloc p.1, p.1))

/-- The seat loop of `saint_lague_allocate`: sort candidates by quotient
descending (stably), collect the `1e-12`-near ties, pick the first or a
seeded random one, and grant one seat. -/
def slLoop (weights current : Dict) (caps : Option Dict) : ℕ → Dict → Rng → Dict × Rng
  | 0, alloc, r => (alloc, r)
  | n + 1, alloc, r =>
    let cand := slCandidates weights current alloc caps
    if cand.isEmpty then (alloc, r)
    else
      let sorted := cand.mergeSort (fun a b => decide (b.1 ≤ a.1))
      let bestQ := ((sorted.head?).map (·.1)).getD 0
      let tied := (sorted.filter (fun p => decide (|p.1 - bestQ| < 1 / 10 ^ 12))).map (·.2)
      let pick : Option String × Rng :=
        if tied.length = 1 then (tied.head?, r) else r.choice tied
      match pick.1 with
      | none => (alloc, pick.2)
      | some k => slLoop weights current caps n (dset alloc k (dget alloc k + 1)) pick.2

/-- `saint_lague_allocate(weights, seats, current, caps, rng)`.  The `current`
and `rng` defaults of the source are always supplied by its callers. -/
def saintLagueAllocate (weights : Dict) (seats : ℤ) (current : Dict)
    (caps : Option Dict) (rng : Rng) : Dict × Rng :=
  if seats ≤ 0 ∨ weights = [] then (weights.map (fun p => (p.1, 0)), rng)
  else slLoop weights current caps seats.toNat (weights.map (fun p => (p.1, 0))) rng

/-- Attach one `rng.random()` tiebreak value to each option, in order. -/
def randKeys : List Day → Rng → List (Day × ℚ) × Rng
  | [], r => ([], r)
  | d :: rest, r =>
    let p := r.randFloat
    let q := randKeys rest p.2
    ((d, p.1) :: q.1, q.2)

/-- Strict lexicographic order on the `(primary, tiebreak)` keys of
`choose_flexible_day`. -/
def lexLt (a b : ℤ × ℚ) : Bool :=
  decide (a.1 < b.1) || (decide (a.1 = b.1) && decide (a.2 < b.2))

/-- First element with the lexicographically smallest key (Python's `min`
keeps the first of equal keys). -/
def firstMinBy : List (Day × (ℤ × ℚ)) → Option (Day × (ℤ × ℚ))
  | [] => none
  | p :: rest =>
    match firstMinBy rest with
    | none => some p
    | some q => if lexLt q.2 p.2 then some q else some p

/-- First element with the lexicographically largest key (Python's `max`
keeps the first of equal keys). -/
def firstMaxBy : List (Day × (ℤ × ℚ)) → Option (Day × (ℤ × ℚ))
  | [] => none
  | p :: rest =>
    match firstMaxBy rest with
    | none => some p
    | some q => if lexLt p.2 q.2 then some q else some p

/-- `choose_flexible_day(opts, per, hard_limit, load_by_day, mode, rng)`. -/
def chooseFlexibleDay (opts : List Day) (per : ℤ) (hardLimit : ℤ)
    (load : Day → ℤ) (mode : String) (rng : Rng) : Option Day × Rng :=
  let opts := opts.filter (fun d => diasSemana.contains d)
  if opts.isEmpty then (none, rng)
  else if mode = "aleatorio" then rng.choice opts
  else if mode = "equilibrar" then
    let p := randKeys opts rng
    ((firstMinBy (p.1.map (fun dk => (dk.1, (load dk.1, dk.2))))).map (·.1), p.2)
  else
    let p := randKeys opts rng
    ((firstMaxBy (p.1.map (fun dk =>
       (dk.1, (hardLimit - (load dk.1 + per), dk.2))))).map (·.1), p.2)

/-- `_even_week_split(total_week, days, rng)` over the five weekdays: base
share plus one extra on the first `total_week % 5` days of a seeded shuffle
(Python `//`/`%` are floor division and nonnegative remainder, `Int.ediv` /
`Int.emod` here). -/
def evenWeekSplit (totalWeek : ℤ) (rng : Rng) : (Day → ℤ) × Rng :=
  if totalWeek ≤ 0 then (fun _ => 0, rng)
  else
    let base := Int.ediv totalWeek 5
    let rem := Int.emod totalWeek 5
    let p := rng.shuffle diasSemana
    (fun d => base + (if (p.1.take rem.toNat).contains d then 1 else 0), p.2)

/-- The weekly-target loop: one even split per `weekly_target` entry, written
into every day's dict. -/
def buildDayAlloc : List (String × ℤ) → WeekAlloc → Rng → WeekAlloc × Rng
  | [], w, r => (w, r)
  | p :: rest, w, r =>
    let s := evenWeekSplit p.2 r
    buildDayAlloc rest (w.mapD (fun d m => dset m p.1 (s.1 d))) s.2

/-- `_apply_full_day_fixed`: pin `max(current, per)` on each listed day. -/
def applyFullDayFixed (w : WeekAlloc) (eq : String) (per : ℤ) (days : List Day) : WeekAlloc :=
  days.foldl (fun w d =>
    if diasSemana.contains d then w.set d (dset (w.get d) eq (max (dget (w.get d) eq) per))
    else w) w

/-- `_apply_full_day_choice`: same pin on the single chosen day. -/
def applyFullDayChoice (w : WeekAlloc) (eq : String) (per : ℤ) (chosen : Option Day) : WeekAlloc :=
  match chosen with
  | some d =>
    if diasSemana.contains d then w.set d (dset (w.get d) eq (max (dget (w.get d) eq) per))
    else w
  | none => w

/-- `_ensure_minimums_per_day`: raise each day to `min(per, mini)` when
positive. -/
def ensureMinimums (w : WeekAlloc) (eq : String) (per mini : ℤ) : WeekAlloc :=
  let target := min per mini
  if target ≤ 0 then w
  else
    diasSemana.foldl (fun w d =>
      let cur := dget (w.get d) eq
      if cur < target then w.set d (dset (w.get d) eq target) else w) w

/-- First pair holding the maximum value (ties keep the earlier pair), the
head of Python's stable `sorted(items, key=value, reverse=True)`. -/
def firstMax : Dict → Option (String × ℤ)
  | [] => none
  | p :: rest =>
    match firstMax rest with
    | none => some p
    | some q => if p.2 < q.2 then some q else some p

/-- The trimming loop of `_cap_day_and_collect_deficit`: remove one seat from
the currently largest holder, `exceso` times, counting the cuts; stop early on
an empty dict or a non-positive maximum. -/
def trimLoop : ℕ → Dict → Dict × ℕ
  | 0, m => (m, 0)
  | n + 1, m =>
    match firstMax m with
    | none => (m, 0)
    | some p =>
      if p.2 ≤ 0 then (m, 0)
      else
        let rec' := trimLoop n (dset m p.1 (p.2 - 1))
        (rec'.1, rec'.2 + 1)

/-- Per-day capacity enforcement: trim `total - hard_limit` seats when the day
exceeds the limit. -/
def capDayTrim (hardLimit : ℤ) (m : Dict) : Dict × ℕ :=
  let total := dsum m
  if hardLimit < total then trimLoop (total - hardLimit).toNat m else (m, 0)

/-- Deficit collection of `_cap_day_and_collect_deficit` for one day: one
record per positive-headcount team whose assignment falls short of its
headcount (`deficit = max(0, per - asig)`), only when parameters apply. -/
def collectDeficitsDay (piso : String) (perMap minMap : Dict) (ignoreParams : Bool)
    (d : Day) (alloc : Dict) : List DeficitRow :=
  if ignoreParams then []
  else
    perMap.filterMap (fun p =>
      if p.2 ≤ 0 then none
      else
        let asig := dget alloc p.1
        let deficit := max 0 (p.2 - asig)
        if 0 < deficit then
          some ⟨piso, p.1, d, p.2, dget minMap p.1, asig, deficit, none⟩
        else none)

/-- `_cap_day_and_collect_deficit` over the five days: trim, then report, in
day order. -/
def capAndDeficits (piso : String) (perMap minMap : Dict) (hardLimit : ℤ)
    (ignoreParams : Bool) (w : WeekAlloc) : WeekAlloc × ℕ × List DeficitRow :=
  diasSemana.foldl (fun acc d =>
    let p := capDayTrim hardLimit (acc.1.get d)
    (acc.1.set d p.1, acc.2.1 + p.2,
     acc.2.2 ++ collectDeficitsDay piso perMap minMap ignoreParams d p.1))
    (w, 0, [])

/-- `_fill_remaining_by_day_saint_lague` for one day: apportion the unused
capacity over the remaining demand. -/
def fillDay (perMap : Dict) (hardLimit : ℤ) (alloc : Dict) (rng : Rng) : Dict × Rng :=
  let used := dsum alloc
  let rem := max 0 (hardLimit - used)
  if rem ≤ 0 then (alloc, rng)
  else
    let weights := perMap.map (fun p => (p.1, max 0 (p.2 - dget alloc p.1)))
    let caps := weights
    let current := perMap.map (fun p => (p.1, dget alloc p.1))
    let res := saintLagueAllocate weights rem current (some caps) rng
    (res.1.foldl (fun a p => if p.2 ≠ 0 then dset a p.1 (dget a p.1 + p.2) else a) alloc,
     res.2)

/-- `_fill_remaining_by_day_saint_lague` over the five days. -/
def fillAllDays (perMap : Dict) (hardLimit : ℤ) (w : WeekAlloc) (rng : Rng) :
    WeekAlloc × Rng :=
  diasSemana.foldl (fun acc d =>
    let p := fillDay perMap hardLimit (acc.1.get d) acc.2
    (acc.1.set d p.1, p.2)) (w, rng)

/-- `equipos_info`: skip blank team names, clamp the headcount at 0, and form
the effective minimum (`max(2, mini_raw)` when `per >= 2`, then capped at
`per`). -/
def mkEquiposInfo (rows : List RosterRow) : List TeamInfo :=
  rows.filterMap (fun r =>
    if r.equipo = "" then none
    else
      let per := max 0 (cellToInt r.personas)
      let miniRaw := cellToInt r.minimo
      some ⟨r.equipo, per, min per (if 2 ≤ per then max 2 miniRaw else miniRaw)⟩)

/-- `per_map = {info["eq"]: int(info["per"]) for info in equipos_info}`
(also `weekly_dot`). -/
def perMapOf (teams : List TeamInfo) : Dict :=
  teams.foldl (fun m t => dset m t.eq t.per) []

/-- `min_map = {info["eq"]: int(info["min"]) for info in equipos_info}`. -/
def minMapOf (teams : List TeamInfo) : Dict :=
  teams.foldl (fun m t => dset m t.eq t.mini) []

/-- `weekly_target = {eq: int(per) * 5 for eq, per in per_map.items()}`. -/
def weeklyTargetOf (teams : List TeamInfo) : List (String × ℤ) :=
  (perMapOf teams).map (fun p => (p.1, p.2 * 5))

/-- `capacidad_pisos`: normalized floor key to positive capacity; rows whose
key or value fail to parse are skipped, later rows overwrite earlier ones. -/
def capacidadPisos (caps : List CapRow) : Dict :=
  caps.foldl (fun m row =>
    match row.piso.bind extractNum with
    | none => m
    | some key =>
      match cellToIntOpt row.cap with
      | none => m
      | some v => if 0 < v then dset m key v else m) []

/-- `cap_total_real`: the explicit capacity when present, otherwise the
truncated sum of the floor's headcount column plus the reserve (falling back
to the reserve alone when `astype(float)` raises), clamped at 0. -/
def capTotalRealOf (capMap : Dict) (reserva : ℤ) (pisoStr : String)
    (floorRows : List RosterRow) : ℤ :=
  let raw :=
    match dfind capMap pisoStr with
    | some c => c
    | none =>
      if floorRows.all (fun r => cellFloatOk r.personas) then
        ratTrunc ((floorRows.map (fun r => cellFillna r.personas)).sum) + reserva
      else reserva
  max 0 raw

/-- Initial `load_by_day`: the headcount of every team with a fixed full-day
rule, added on each of its listed days. -/
def fixedLoad (reglas : List (String × Rule)) (teams : List TeamInfo) (d : Day) : ℤ :=
  (teams.map (fun t =>
    match lookupRule reglas (normalizeText t.eq) with
    | some (.fixedDays days) =>
      (((days.filter (fun x => diasSemana.contains x)).count d : ℤ)) * t.per
    | _ => 0)).sum

/-- State threaded through the choice-resolution loop. -/
structure ChoiceState : Type where
  asg : List (String × Day)
  load : Day → ℤ
  rng : Rng
  entries : List ChoiceEntry

/-- `full_day_choice_assignment.get(nm_norm)`. -/
def lookupAsg (asg : List (String × Day)) (k : String) : Option Day :=
  (asg.find? (fun p => p.1 == k)).map (·.2)

/-- The choice-resolution loop: for every team with a choice rule, pick a day
with `choose_flexible_day`, record it, and account its load. -/
def chooseFold (pisoStr : String) (reglas : List (String × Rule)) (hardLimit : ℤ)
    (mode : String) (teams : List TeamInfo) (load0 : Day → ℤ) (rng : Rng) : ChoiceState :=
  teams.foldl (fun st t =>
    match lookupRule reglas (normalizeText t.eq) with
    | some (.choiceDays days) =>
      let c := chooseFlexibleDay days t.per hardLimit st.load mode st.rng
      match c.1 with
      | some d =>
        { asg := st.asg ++ [(normalizeText t.eq, d)],
          load := fun x => if x = d then st.load x + t.per else st.load x,
          rng := c.2,
          entries := st.entries ++
            [⟨pisoStr, t.eq, String.intercalate " o " (days.map dayName), d, mode⟩] }
      | none => { st with rng := c.2 }
    | _ => st) ⟨[], load0, rng, []⟩

/-- Apply the fixed rules, and the resolved choice rules, as full-day pins. -/
def applyRules (reglas : List (String × Rule)) (asg : List (String × Day))
    (teams : List TeamInfo) (w : WeekAlloc) : WeekAlloc :=
  teams.foldl (fun w t =>
    match lookupRule reglas (normalizeText t.eq) with
    | some (.fixedDays days) => applyFullDayFixed w t.eq t.per days
    | some (.choiceDays _) =>
      applyFullDayChoice w t.eq t.per (lookupAsg asg (normalizeText t.eq))
    | none => w) w

/-- Apply `_ensure_minimums_per_day` for every team. -/
def applyMinimums (teams : List TeamInfo) (w : WeekAlloc) : WeekAlloc :=
  teams.foldl (fun w t => ensureMinimums w t.eq t.per t.mini) w

/-- Everything one floor pass computes before the Sainte-Laguë fill step:
identification, capacities, team parsing, the weekly split, the full-day and
minimum adjustments, and the per-day capacity trim with deficit reporting.
`none` are the `continue` cases of the floor loop (unparseable floor label or
no usable team row), which consume no randomness. -/
structure FloorPre : Type where
  piso : String
  teams : List TeamInfo
  capTotal : ℤ
  hard : ℤ
  libres : ℤ
  alloc : WeekAlloc
  deficits : List DeficitRow
  recortes : ℕ
  choices : List ChoiceEntry
  rng : Rng
  deriving DecidableEq, Inhabited

/-- Step (2) of a floor pass: when parameters apply and rules exist, resolve
the choice rules, pin the full-day assignments, and enforce the daily
minimums; otherwise pass the allocation through untouched. -/
def fullDaySection (reglas : List (String × Rule)) (ignoreParams : Bool) (mode : String)
    (pisoStr : String) (hard : ℤ) (teams : List TeamInfo) (w : WeekAlloc) (rng : Rng) :
    WeekAlloc × Rng × List ChoiceEntry :=
  if ignoreParams = false ∧ reglas ≠ [] then
    let cs := chooseFold pisoStr reglas hard mode teams (fixedLoad reglas teams) rng
    (applyMinimums teams (applyRules reglas cs.asg teams w), cs.rng, cs.entries)
  else (w, rng, [])

/-- Steps (1)–(3) of one floor pass, once the floor label is identified, the
capacity resolved (already clamped at 0), and the team list parsed: the even
weekly split, the full-day and minimum adjustments, and the per-day capacity
trim with deficit reporting. -/
def processFloorSteps (reglas : List (String × Rule)) (ignoreParams : Bool) (mode : String)
    (pisoStr : String) (capTotal : ℤ) (reserva : ℤ) (teams : List TeamInfo)
    (rng : Rng) : FloorPre :=
  let hard := max 0 (capTotal - reserva)
  let b := buildDayAlloc (weeklyTargetOf teams) WeekAlloc.empty rng
  let fd := fullDaySection reglas ignoreParams mode pisoStr hard teams b.1 b.2
  let cad := capAndDeficits pisoStr (perMapOf teams) (minMapOf teams) hard ignoreParams fd.1
  { piso := pisoStr, teams := teams, capTotal := capTotal, hard := hard,
    libres := if reserva ≤ capTotal then reserva else capTotal,
    alloc := cad.1, deficits := cad.2.2, recortes := cad.2.1,
    choices := fd.2.2, rng := fd.2.1 }

/-- One floor pass of `compute_distribution_from_excel` up to (and including)
step (3), `_cap_day_and_collect_deficit`; `none` are the loop's `continue`
cases. -/
def processFloorPre (reglas : List (String × Rule)) (ignoreParams : Bool) (mode : String)
    (capMap : Dict) (reserva : ℤ) (rows : List RosterRow) (pisoRaw : String)
    (rng : Rng) : Option FloorPre :=
  match extractNum pisoRaw with
  | none => none
  | some pisoStr =>
    let floorRows := rows.filter (fun r => r.piso == some pisoRaw)
    if floorRows.isEmpty then none
    else
      let teams := mkEquiposInfo floorRows
      if teams.isEmpty then none
      else
        some (processFloorSteps reglas ignoreParams mode pisoStr
          (capTotalRealOf capMap reserva pisoStr floorRows) reserva teams rng)

/-- The per-floor output a claim can talk about: the final allocation, the
emitted rows, deficits, audit contributions and score contributions. -/
structure FloorCore : Type where
  piso : String
  teams : List TeamInfo
  capTotal : ℤ
  hard : ℤ
  libres : ℤ
  alloc : WeekAlloc
  rowsRaw : List Row
  usage : QDict
  deficits : List DeficitRow
  recortes : ℕ
  choices : List ChoiceEntry
  summary : List SummaryEntry
  sqErr : ℚ
  nEval : ℕ
  rngOut : Rng
  deriving DecidableEq, Inhabited

/-- The inner per-team fold of step (5): add the day's assignment into
`weekly_assigned` and, when positive, emit the team's row with its daily
usage percentage. -/
def dayRowsFold (piso : String) (hard : ℤ) (allocD : Dict) (d : Day)
    (acc : List Row × Dict) (p : String × ℤ) : List Row × Dict :=
  let asig := dget allocD p.1
  let wa := dset acc.2 p.1 (dget acc.2 p.1 + asig)
  if asig ≤ 0 then (acc.1, wa)
  else
    let uso : ℚ := if 0 < hard then pythonRound2 (intQ asig / intQ hard * 100) else 0
    (acc.1 ++ [⟨piso, p.1, d, some p.2, asig, some uso, none⟩], wa)

/-- Step (5) of the floor loop for one day: accumulate the proportionality
error, emit the positive team rows and the reserved-pool row, and add the
day's assignments into `weekly_assigned`.  The state is
`(rows, sq_error, n_eval, weekly_assigned)`. -/
def floorDayStep (piso : String) (perMap : Dict) (hard : ℤ) (libres : ℤ)
    (alloc : WeekAlloc) (st : List Row × ℚ × ℕ × Dict) (d : Day) :
    List Row × ℚ × ℕ × Dict :=
  let allocD := alloc.get d
  let sumPer := (perMap.map (fun p => max 0 p.2)).sum
  let sq : ℚ × ℕ :=
    if 0 < sumPer ∧ 0 < hard then
      perMap.foldl (fun (s : ℚ × ℕ) p =>
        if p.2 ≤ 0 then s
        else
          let target := intQ p.2 / intQ sumPer * intQ hard
          let err := intQ (dget allocD p.1) - target
          (s.1 + err * err, s.2 + 1)) (st.2.1, st.2.2.1)
    else (st.2.1, st.2.2.1)
  let rw := perMap.foldl (dayRowsFold piso hard allocD d) (st.1, st.2.2.2)
  (rw.1 ++ [⟨piso, "Cupos libres", d, none, libres, none, none⟩], sq.1, sq.2, rw.2)

/-- Steps (5) and the weekly aggregation of one floor pass, from the final
allocation. -/
def floorFinish (pre : FloorPre) (alloc : WeekAlloc) (rng : Rng) : FloorCore :=
  let perMap := perMapOf pre.teams
  let init : List Row × ℚ × ℕ × Dict := ([], 0, 0, perMap.map (fun p => (p.1, 0)))
  let st := diasSemana.foldl (floorDayStep pre.piso perMap pre.hard pre.libres alloc) init
  let weekAssigned := st.2.2.2
  let usage : QDict := weekAssigned.map (fun p =>
    let dot := dget perMap p.1
    (p.1, if 0 < dot then pythonRound2 (intQ p.2 / (intQ dot * 5) * 100) else 0))
  let summary := weekAssigned.map (fun p =>
    { piso := pre.piso, equipo := p.1, dotacion := dget perMap p.1,
      cuposSemana := p.2, cuposPromedioDiario := pythonRound2 (intQ p.2 / 5),
      usoSemanal := qget usage p.1 })
  { piso := pre.piso, teams := pre.teams, capTotal := pre.capTotal, hard := pre.hard,
    libres := pre.libres, alloc := alloc, rowsRaw := st.1, usage := usage,
    deficits := pre.deficits, recortes := pre.recortes, choices := pre.choices,
    summary := summary, sqErr := st.2.1, nEval := st.2.2.1, rngOut := rng }

/-- The `% uso semanal` back-fill pass: on every accumulated row of the
current floor that is a team row, store the team's weekly usage. -/
def updateRowsFor (piso : String) (usage : QDict) (rows : List Row) : List Row :=
  rows.map (fun r =>
    if r.piso == piso && !(r.equipo == "") &&
       !(normalizeText r.equipo == normalizeText "Cupos libres") then
      { r with usoSemanal := some (qget usage r.equipo) }
    else r)

/-- `pisos_unicos = equipos_df[col_piso].dropna().unique()`. -/
def pisosUnicos (rows : List RosterRow) : List String :=
  pyUnique (rows.filterMap (·.piso))

/-- Step (4) and (5) applied after a floor's pre-pass: the Sainte-Laguë fill,
then the rows/percentages/weekly aggregation.  This is the complete per-floor
computation every claim about "a floor of the result" quantifies over. -/
def floorCoreOf (pre : FloorPre) : FloorCore :=
  let f := fillAllDays (perMapOf pre.teams) pre.hard pre.alloc pre.rng
  floorFinish pre f.1 f.2

/-- The same per-floor computation with `_fill_remaining_by_day_saint_lague`
removed (claim C3's comparison pipeline). -/
def floorCoreOfNoFill (pre : FloorPre) : FloorCore :=
  floorFinish pre pre.alloc pre.rng

/-- The floor loop producing one `FloorCore` per processed floor, threading
the generator; skipped floors leave it untouched. -/
def floorCoresGo (inp : EngineInput) (capMap : Dict) (reserva : ℤ) :
    List String → Rng → List FloorCore
  | [], _ => []
  | pisoRaw :: rest, rng =>
    match processFloorPre inp.reglas inp.ignoreParams inp.variantMode capMap reserva
        inp.equiposRows pisoRaw rng with
    | none => floorCoresGo inp capMap reserva rest rng
    | some pre =>
      let core := floorCoreOf pre
      core :: floorCoresGo inp capMap reserva rest core.rngOut

/-- The floor loop with the final Sainte-Laguë fill step removed, for
claim C3. -/
def floorCoresNoFillGo (inp : EngineInput) (capMap : Dict) (reserva : ℤ) :
    List String → Rng → List FloorCore
  | [], _ => []
  | pisoRaw :: rest, rng =>
    match processFloorPre inp.reglas inp.ignoreParams inp.variantMode capMap reserva
        inp.equiposRows pisoRaw rng with
    | none => floorCoresNoFillGo inp capMap reserva rest rng
    | some pre =>
      let core := floorCoreOfNoFill pre
      core :: floorCoresNoFillGo inp capMap reserva rest core.rngOut

/-- Detection of the four required roster columns (`next(c for c in columns
if needle in normalize_text(c))`); the accented needles of the source are
subsumed by normalization. -/
def colPisoPred (c : String) : Bool := strContains (normalizeText c) "piso"

def colEquipoPred (c : String) : Bool := strContains (normalizeText c) "equipo"

def colPersonasPred (c : String) : Bool :=
  strContains (normalizeText c) "personas" || strContains (normalizeText c) "dotacion" ||
  strContains (normalizeText c) "total"

def colMinimosPred (c : String) : Bool := strContains (normalizeText c) "minimo"

/-- `col_piso and col_equipo and col_personas and col_minimos`. -/
def colsOk (cols : List String) : Bool :=
  cols.any colPisoPred && cols.any colEquipoPred &&
  cols.any colPersonasPred && cols.any colMinimosPred

/-- `RESERVA_OBLIGATORIA = int(cupos_reserva) if cupos_reserva is not None
else 2`. -/
def reservaOf (inp : EngineInput) : ℤ := inp.cuposReserva.getD 2

/-- The per-floor outputs of a run of `compute_distribution_from_excel`
(empty when the guards return early). -/
def floorCores (inp : EngineInput) : List FloorCore :=
  if inp.equiposRows.isEmpty then []
  else if !(colsOk inp.equiposCols) then []
  else
    floorCoresGo inp (capacidadPisos inp.capacidades) (reservaOf inp)
      (pisosUnicos inp.equiposRows) (Rng.ofSeed inp.variantSeed)

/-- Same, for the pipeline without the fill step. -/
def floorCoresNoFill (inp : EngineInput) : List FloorCore :=
  if inp.equiposRows.isEmpty then []
  else if !(colsOk inp.equiposCols) then []
  else
    floorCoresNoFillGo inp (capacidadPisos inp.capacidades) (reservaOf inp)
      (pisosUnicos inp.equiposRows) (Rng.ofSeed inp.variantSeed)

/-- Accumulator of the global outputs across floor passes. -/
structure AsmState : Type where
  rows : List Row
  deficits : List DeficitRow
  choices : List ChoiceEntry
  summaries : List SummaryEntry
  sqErr : ℚ
  nEval : ℕ
  totalDeficit : ℤ
  recortes : ℕ
  deriving DecidableEq, Inhabited

/-- Merge one floor pass into the global outputs: append its rows and run the
`% uso semanal` back-fill over everything accumulated, append its deficits,
audit entries and summaries, and re-scan the whole deficit list for the
current floor key to grow `total_deficit` (exactly as the source does). -/
def asmStep (ignoreParams : Bool) (st : AsmState) (c : FloorCore) : AsmState :=
  let rows' := updateRowsFor c.piso c.usage (st.rows ++ c.rowsRaw)
  let defs' := st.deficits ++ c.deficits
  let td :=
    if ignoreParams = false ∧ defs' ≠ [] then
      st.totalDeficit + ((defs'.filter (fun dr => dr.piso == c.piso)).map (·.deficit)).sum
    else st.totalDeficit
  { rows := rows', deficits := defs', choices := st.choices ++ c.choices,
    summaries := st.summaries ++ c.summary, sqErr := st.sqErr + c.sqErr,
    nEval := st.nEval + c.nEval, totalDeficit := td, recortes := st.recortes + c.recortes }

/-- Fold the floor passes and build the returned quadruple, with
`mse = total_sq_error / max(1, n_eval)` and
`score = mse + total_deficit * 50 + recortes * 200`. -/
def assemble (inp : EngineInput) (cores : List FloorCore) : RunResult :=
  let st := cores.foldl (asmStep inp.ignoreParams) ⟨[], [], [], [], 0, 0, 0, 0⟩
  let mse := st.sqErr / intQ (max 1 (st.nEval : ℤ))
  let score := mse + intQ st.totalDeficit * 50 + intQ (st.recortes : ℤ) * 200
  { rows := st.rows, deficits := st.deficits,
    audit := ⟨inp.variantSeed, inp.variantMode, st.choices, st.summaries⟩,
    score := ⟨score, .okDetails mse st.totalDeficit (st.recortes : ℤ) st.nEval⟩ }

/-- The audit skeleton built at the top of the engine. -/
def baseAudit (inp : EngineInput) : Audit := ⟨inp.variantSeed, inp.variantMode, [], []⟩

/-- `compute_distribution_from_excel`.  The `globalRng` argument models the
interpreter's ambient (module-level) random state: the source never touches
it — every draw goes through the `random.Random(variant_seed ...)` instance —
so the embedding receives it and ignores it, which is what claim C4 is
about. -/
def compute (globalRng : Rng) (inp : EngineInput) : RunResult :=
  if inp.equiposRows.isEmpty then
    ⟨[], [], baseAudit inp, ⟨intQ (10 ^ 18), .emptyDetails⟩⟩
  else if !(colsOk inp.equiposCols) then
    ⟨[], [], baseAudit inp, ⟨intQ (10 ^ 18), .errorDetails "Faltan columnas clave"⟩⟩
  else assemble inp (floorCores inp)

/-- The same engine with `_fill_remaining_by_day_saint_lague` removed
(claim C3's comparison pipeline). -/
def computeNoFill (globalRng : Rng) (inp : EngineInput) : RunResult :=
  if inp.equiposRows.isEmpty then
    ⟨[], [], baseAudit inp, ⟨intQ (10 ^ 18), .emptyDetails⟩⟩
  else if !(colsOk inp.equiposCols) then
    ⟨[], [], baseAudit inp, ⟨intQ (10 ^ 18), .errorDetails "Faltan columnas clave"⟩⟩
  else assemble inp (floorCoresNoFill inp)

/-- `filter_minimum_deficits` (`app.py`): keep the records whose minimum is
not met, recomputing `deficit = max(0, minimo - asignado)` and attaching the
human-readable cause.  Its `int(float(...))` re-parse is the identity on the
integer fields the engine emits, and its `except: continue` is unreachable. -/
def filterMinimumDeficits (l : List DeficitRow) : List DeficitRow :=
  l.filterMap (fun it =>
    let dv := max 0 (it.minimo - it.asignado)
    if 0 < dv then
      some { it with
             deficit := dv
             causa := some ("Faltan " ++ toString dv ++ " puestos (capacidad insuficiente)") }
    else none)

/-- A tagged view of the list-valued audit entries.  The `infeasibleDay`
constructor exists so that the absence of such entries (claim C8) is a
statable proposition; the engine never constructs one. -/
inductive AuditEntry : Type where
  | choiceMade : ChoiceEntry → AuditEntry
  | weeklyLine : SummaryEntry → AuditEntry
  | infeasibleDay : String → Day → AuditEntry
  deriving DecidableEq, Inhabited

/-- Whether an audit entry is an `infeasible_day` warning. -/
def AuditEntry.isInfeasibleDay : AuditEntry → Bool
  | .infeasibleDay _ _ => true
  | _ => false

/-- All list-valued entries an audit trail holds. -/
def auditEntries (a : Audit) : List AuditEntry :=
  a.fullDayChoices.map .choiceMade ++ a.weeklySummary.map .weeklyLine

/-! ### Basic lemmas about the week structure and the dict operations -/

theorem WeekAlloc.get_set_self (w : WeekAlloc) (d : Day) (m : Dict) :
    (w.set d m).get d = m := by
  cases d <;> rfl

theorem WeekAlloc.get_set_ne (w : WeekAlloc) (d d' : Day) (m : Dict) (h : d ≠ d') :
    (w.set d m).get d' = w.get d' := by
  cases d <;> cases d' <;> first | rfl | exact absurd rfl h

theorem WeekAlloc.set_get_self (w : WeekAlloc) (d : Day) :
    w.set d (w.get d) = w := by
  cases d <;> rfl

theorem WeekAlloc.get_mapD (w : WeekAlloc) (f : Day → Dict → Dict) (d : Day) :
    (w.mapD f).get d = f d (w.get d) := by
  cases d <;> rfl

theorem dget_nil (k : String) : dget [] k = 0 := rfl

theorem dget_cons (p : String × ℤ) (m : Dict) (k : String) :
    dget (p :: m) k = if p.1 = k then p.2 else dget m k := rfl

theorem dset_nil (k : String) (v : ℤ) : dset [] k v = [(k, v)] := rfl

theorem dset_cons (p : String × ℤ) (m : Dict) (k : String) (v : ℤ) :
    dset (p :: m) k v = if p.1 = k then (k, v) :: m else p :: dset m k v := rfl

theorem dkeys_nil : dkeys [] = [] := rfl

theorem dkeys_cons (p : String × ℤ) (m : Dict) : dkeys (p :: m) = p.1 :: dkeys m := rfl

theorem dsum_nil : dsum [] = 0 := rfl

theorem dsum_cons (p : String × ℤ) (m : Dict) : dsum (p :: m) = p.2 + dsum m := by
  simp [dsum]

theorem dget_dset_self (m : Dict) (k : String) (v : ℤ) : dget (dset m k v) k = v := by
  induction m with
  | nil => simp [dset_nil, dget_cons, dget_nil]
  | cons p m ih =>
    by_cases h : p.1 = k
    · simp [dset_cons, h, dget_cons]
    · simp [dset_cons, h, dget_cons, ih]

theorem dget_dset_ne (m : Dict) (k k' : String) (v : ℤ) (h : k' ≠ k) :
    dget (dset m k v) k' = dget m k' := by
  have hk : ¬ (k = k') := fun hh => h hh.symm
  induction m with
  | nil => simp [dset_nil, dget_cons, dget_nil, hk]
  | cons p m ih =>
    by_cases hp : p.1 = k
    · have hp' : ¬ (p.1 = k') := by
        rw [hp]
        exact hk
      simp [dset_cons, hp, dget_cons, hk, hp']
    · simp [dset_cons, hp, dget_cons, ih]

theorem dget_dset (m : Dict) (k k' : String) (v : ℤ) :
    dget (dset m k v) k' = if k' = k then v else dget m k' := by
  by_cases h : k' = k
  · simp [h, dget_dset_self]
  · simp [h, dget_dset_ne m k k' v h]

theorem dkeys_dset_of_mem (m : Dict) (k : String) (v : ℤ) (h : k ∈ dkeys m) :
    dkeys (dset m k v) = dkeys m := by
  induction m with
  | nil => simp [dkeys_nil] at h
  | cons p m ih =>
    by_cases hp : p.1 = k
    · simp [dset_cons, hp, dkeys_cons]
    · rw [dkeys_cons, List.mem_cons] at h
      rcases h with h | h
      · exact absurd h.symm hp
      · simp [dset_cons, hp, dkeys_cons, ih h]

theorem dkeys_dset_of_not_mem (m : Dict) (k : String) (v : ℤ) (h : k ∉ dkeys m) :
    dkeys (dset m k v) = dkeys m ++ [k] := by
  induction m with
  | nil => simp [dset_nil, dkeys_cons, dkeys_nil]
  | cons p m ih =>
    rw [dkeys_cons] at h
    have hp : p.1 ≠ k := fun hp => h (hp ▸ List.mem_cons_self _ _)
    have hm : k ∉ dkeys m := fun hm => h (List.mem_cons_of_mem _ hm)
    simp [dset_cons, hp, dkeys_cons, ih hm]

theorem dset_of_not_mem (m : Dict) (k : String) (v : ℤ) (h : k ∉ dkeys m) :
    dset m k v = m ++ [(k, v)] := by
  induction m with
  | nil => simp [dset_nil]
  | cons p m ih =>
    rw [dkeys_cons] at h
    have hp : p.1 ≠ k := fun hp => h (hp ▸ List.mem_cons_self _ _)
    have hm : k ∉ dkeys m := fun hm => h (List.mem_cons_of_mem _ hm)
    simp [dset_cons, hp, ih hm]

theorem dset_dget_self (m : Dict) (k : String) (h : k ∈ dkeys m) :
    dset m k (dget m k) = m := by
  induction m with
  | nil => simp [dkeys_nil] at h
  | cons p m ih =>
    by_cases hp : p.1 = k
    · obtain ⟨p1, p2⟩ := p
      simp only at hp
      subst hp
      simp [dset_cons, dget_cons]
    · rw [dkeys_cons, List.mem_cons] at h
      rcases h with h | h
      · exact absurd h.symm hp
      · simp [dset_cons, dget_cons, hp, ih h]

theorem forall_mem_dset {P : String × ℤ → Prop} (m : Dict) (k : String) (v : ℤ)
    (hm : ∀ p ∈ m, P p) (hv : P (k, v)) : ∀ p ∈ dset m k v, P p := by
  induction m with
  | nil =>
    intro p hp
    rw [dset_nil, List.mem_singleton] at hp
    exact hp ▸ hv
  | cons q m ih =>
    intro p hp
    by_cases hq : q.1 = k
    · rw [dset_cons, if_pos hq, List.mem_cons] at hp
      rcases hp with hp | hp
      · exact hp ▸ hv
      · exact hm p (List.mem_cons_of_mem _ hp)
    · rw [dset_cons, if_neg hq, List.mem_cons] at hp
      rcases hp with hp | hp
      · exact hp ▸ hm q (List.mem_cons_self _ _)
      · exact ih (fun r hr => hm r (List.mem_cons_of_mem _ hr)) p hp

theorem dsum_dset_of_mem (m : Dict) (k : String) (v : ℤ) (h : k ∈ dkeys m) :
    dsum (dset m k v) = dsum m - dget m k + v := by
  induction m with
  | nil => simp [dkeys_nil] at h
  | cons p m ih =>
    by_cases hp : p.1 = k
    · simp [dset_cons, dget_cons, hp, dsum_cons]
      ring
    · rw [dkeys_cons, List.mem_cons] at h
      rcases h with h | h
      · exact absurd h.symm hp
      · rw [dset_cons, if_neg hp, dsum_cons, dsum_cons, dget_cons, if_neg hp, ih h]
        ring

theorem dget_nonneg (m : Dict) (h : ∀ p ∈ m, 0 ≤ p.2) (k : String) : 0 ≤ dget m k := by
  induction m with
  | nil => simp [dget_nil]
  | cons p m ih =>
    rw [dget_cons]
    by_cases hp : p.1 = k
    · simpa [hp] using h p (List.mem_cons_self _ _)
    · simp only [if_neg hp]
      exact ih (fun q hq => h q (List.mem_cons_of_mem _ hq))

theorem mem_dkeys_of_mem (m : Dict) (p : String × ℤ) (h : p ∈ m) : p.1 ∈ dkeys m :=
  List.mem_map_of_mem (·.1) h

theorem dget_of_mem_nodup (m : Dict) (p : String × ℤ) (hnd : (dkeys m).Nodup)
    (h : p ∈ m) : dget m p.1 = p.2 := by
  induction m with
  | nil => simp at h
  | cons q m ih =>
    rw [dkeys_cons, List.nodup_cons] at hnd
    rcases List.mem_cons.1 h with h | h
    · simp [h, dget_cons]
    · have hq : q.1 ≠ p.1 := fun he => hnd.1 (he ▸ mem_dkeys_of_mem m p h)
      rw [dget_cons, if_neg hq]
      exact ih hnd.2 h

theorem dsum_eq_sum_dget (m : Dict) (hnd : (dkeys m).Nodup) :
    dsum m = ((dkeys m).map (dget m)).sum := by
  induction m with
  | nil => simp [dsum_nil, dkeys_nil]
  | cons p m ih =>
    rw [dkeys_cons, List.nodup_cons] at hnd
    have hmap : ∀ k ∈ dkeys m, dget (p :: m) k = dget m k := by
      intro k hk
      have : p.1 ≠ k := fun he => hnd.1 (he ▸ hk)
      simp [dget_cons, this]
    rw [dsum_cons, dkeys_cons, List.map_cons, List.sum_cons, dget_cons, if_pos rfl,
      List.map_congr_left hmap, ih hnd.2]

/-! ### The capacity-trim loop -/

theorem firstMax_eq_none (m : Dict) : firstMax m = none ↔ m = [] := by
  cases m with
  | nil => simp [firstMax]
  | cons p m =>
    simp only [firstMax]
    cases firstMax m with
    | none => simp
    | some q =>
      by_cases h : p.2 < q.2 <;> simp [h]

theorem firstMax_mem (m : Dict) (p : String × ℤ) (h : firstMax m = some p) : p ∈ m := by
  induction m generalizing p with
  | nil => simp [firstMax] at h
  | cons q m ih =>
    simp only [firstMax] at h
    cases hm : firstMax m with
    | none =>
      rw [hm] at h
      exact List.mem_cons.2 (Or.inl (Option.some.inj h).symm)
    | some r =>
      rw [hm] at h
      dsimp only at h
      by_cases hlt : q.2 < r.2
      · rw [if_pos hlt] at h
        exact List.mem_cons_of_mem _ (ih p (hm.trans (congrArg some (Option.some.inj h))))
      · rw [if_neg hlt] at h
        exact List.mem_cons.2 (Or.inl (Option.some.inj h).symm)

theorem firstMax_ge (m : Dict) (p : String × ℤ) (h : firstMax m = some p) :
    ∀ q ∈ m, q.2 ≤ p.2 := by
  induction m generalizing p with
  | nil => simp [firstMax] at h
  | cons q m ih =>
    intro r hr
    simp only [firstMax] at h
    cases hm : firstMax m with
    | none =>
      rw [hm] at h
      have hmnil : m = [] := (firstMax_eq_none m).1 hm
      rcases List.mem_cons.1 hr with hr | hr
      · rw [hr, ← Option.some.inj h]
      · simp [hmnil] at hr
    | some s =>
      rw [hm] at h
      dsimp only at h
      by_cases hlt : q.2 < s.2
      · rw [if_pos hlt] at h
        have hps : s = p := Option.some.inj h
        rcases List.mem_cons.1 hr with hr | hr
        · rw [hr, ← hps]
          exact le_of_lt hlt
        · exact ih p (hm.trans (congrArg some hps)) r hr
      · rw [if_neg hlt] at h
        have hps : q = p := Option.some.inj h
        rcases List.mem_cons.1 hr with hr | hr
        · rw [hr, ← hps]
        · rw [← hps]
          exact le_trans (ih s hm r hr) (not_lt.1 hlt)

theorem dsum_nonpos (m : Dict) (hc : ∀ q ∈ m, q.2 ≤ 0) : dsum m ≤ 0 := by
  induction m with
  | nil => simp [dsum_nil]
  | cons p m ih =>
    rw [dsum_cons]
    have h1 := hc p (List.mem_cons_self _ _)
    have h2 := ih (fun q hq => hc q (List.mem_cons_of_mem _ hq))
    linarith

theorem exists_pos_of_dsum_pos (m : Dict) (h : 0 < dsum m) : ∃ q ∈ m, 0 < q.2 := by
  by_contra hc
  push_neg at hc
  have := dsum_nonpos m hc
  linarith

theorem firstMax_pos (m : Dict) (hs : 0 < dsum m) :
    ∃ p, firstMax m = some p ∧ 0 < p.2 := by
  obtain ⟨q, hq, hqpos⟩ := exists_pos_of_dsum_pos m hs
  have hne : m ≠ [] := by
    intro hnil
    rw [hnil] at hq
    simp at hq
  cases hm : firstMax m with
  | none => exact absurd ((firstMax_eq_none m).1 hm) hne
  | some p =>
    exact ⟨p, rfl, lt_of_lt_of_le hqpos (firstMax_ge m p hm q hq)⟩

theorem trimLoop_keys (n : ℕ) (m : Dict) : dkeys (trimLoop n m).1 = dkeys m := by
  induction n generalizing m with
  | zero => rfl
  | succ n ih =>
    simp only [trimLoop]
    cases hm : firstMax m with
    | none => rfl
    | some p =>
      by_cases hp : p.2 ≤ 0
      · simp [hp]
      · simp only [if_neg hp]
        rw [ih (dset m p.1 (p.2 - 1)),
          dkeys_dset_of_mem m p.1 _ (mem_dkeys_of_mem m p (firstMax_mem m p hm))]

theorem trimLoop_nonneg (n : ℕ) (m : Dict) (h : ∀ p ∈ m, 0 ≤ p.2) :
    ∀ p ∈ (trimLoop n m).1, 0 ≤ p.2 := by
  induction n generalizing m with
  | zero => exact h
  | succ n ih =>
    simp only [trimLoop]
    cases hm : firstMax m with
    | none => exact h
    | some p =>
      by_cases hp : p.2 ≤ 0
      · simpa [hp] using h
      · simp only [if_neg hp]
        exact ih (dset m p.1 (p.2 - 1))
          (forall_mem_dset m p.1 (p.2 - 1) h (by simp; linarith [not_le.1 hp]))

theorem trimLoop_le (n : ℕ) (m : Dict) (hnd : (dkeys m).Nodup) (k : String) :
    dget (trimLoop n m).1 k ≤ dget m k := by
  induction n generalizing m with
  | zero => exact le_refl _
  | succ n ih =>
    simp only [trimLoop]
    cases hm : firstMax m with
    | none => exact le_refl _
    | some p =>
      by_cases hp : p.2 ≤ 0
      · simp [hp]
      · simp only [if_neg hp]
        have hmem : p.1 ∈ dkeys m := mem_dkeys_of_mem m p (firstMax_mem m p hm)
        have hnd' : (dkeys (dset m p.1 (p.2 - 1))).Nodup := by
          rw [dkeys_dset_of_mem m p.1 _ hmem]
          exact hnd
        refine le_trans (ih (dset m p.1 (p.2 - 1)) hnd') ?_
        rw [dget_dset m p.1 k (p.2 - 1)]
        by_cases hk : k = p.1
        · rw [if_pos hk, hk, dget_of_mem_nodup m p hnd (firstMax_mem m p hm)]
          linarith
        · rw [if_neg hk]

theorem trimLoop_sum (n : ℕ) (m : Dict) (hnd : (dkeys m).Nodup)
    (hnn : ∀ p ∈ m, 0 ≤ p.2) (h : (n : ℤ) ≤ dsum m) :
    dsum (trimLoop n m).1 = dsum m - n := by
  induction n generalizing m with
  | zero => simp [trimLoop]
  | succ n ih =>
    have hpos : 0 < dsum m := by
      have : (0 : ℤ) < (n : ℤ) + 1 := by positivity
      push_cast at h
      linarith
    obtain ⟨p, hm, hppos⟩ := firstMax_pos m hpos
    simp only [trimLoop, hm, if_neg (not_le.2 hppos)]
    have hmem : p.1 ∈ dkeys m := mem_dkeys_of_mem m p (firstMax_mem m p hm)
    have hget : dget m p.1 = p.2 := dget_of_mem_nodup m p hnd (firstMax_mem m p hm)
    have hsum : dsum (dset m p.1 (p.2 - 1)) = dsum m - 1 := by
      rw [dsum_dset_of_mem m p.1 _ hmem, hget]
      ring
    have hnd' : (dkeys (dset m p.1 (p.2 - 1))).Nodup := by
      rw [dkeys_dset_of_mem m p.1 _ hmem]
      exact hnd
    have hnn' : ∀ q ∈ dset m p.1 (p.2 - 1), 0 ≤ q.2 :=
      forall_mem_dset m p.1 (p.2 - 1) hnn (by simp; linarith)
    have hle : (n : ℤ) ≤ dsum (dset m p.1 (p.2 - 1)) := by
      rw [hsum]
      push_cast at h
      linarith
    rw [ih (dset m p.1 (p.2 - 1)) hnd' hnn' hle, hsum]
    push_cast
    ring

theorem capDayTrim_of_le (hardLimit : ℤ) (m : Dict) (h : dsum m ≤ hardLimit) :
    capDayTrim hardLimit m = (m, 0) := by
  simp [capDayTrim, not_lt.2 h]

theorem capDayTrim_keys (hardLimit : ℤ) (m : Dict) :
    dkeys (capDayTrim hardLimit m).1 = dkeys m := by
  by_cases h : hardLimit < dsum m
  · simp [capDayTrim, h, trimLoop_keys]
  · simp [capDayTrim, h]

theorem capDayTrim_nonneg (hardLimit : ℤ) (m : Dict) (hnn : ∀ p ∈ m, 0 ≤ p.2) :
    ∀ p ∈ (capDayTrim hardLimit m).1, 0 ≤ p.2 := by
  by_cases h : hardLimit < dsum m
  · simpa [capDayTrim, h] using trimLoop_nonneg _ m hnn
  · simpa [capDayTrim, h] using hnn

theorem capDayTrim_le (hardLimit : ℤ) (m : Dict) (hnd : (dkeys m).Nodup) (k : String) :
    dget (capDayTrim hardLimit m).1 k ≤ dget m k := by
  by_cases h : hardLimit < dsum m
  · simpa [capDayTrim, h] using trimLoop_le _ m hnd k
  · simp [capDayTrim, h]

theorem capDayTrim_sum_eq_of_lt (hardLimit : ℤ) (m : Dict) (hnd : (dkeys m).Nodup)
    (hnn : ∀ p ∈ m, 0 ≤ p.2) (h0 : 0 ≤ hardLimit) (h : hardLimit < dsum m) :
    dsum (capDayTrim hardLimit m).1 = hardLimit := by
  have htn : ((dsum m - hardLimit).toNat : ℤ) = dsum m - hardLimit :=
    Int.toNat_of_nonneg (by linarith)
  simp only [capDayTrim, if_pos h]
  rw [trimLoop_sum _ m hnd hnn (by rw [htn]; linarith), htn]
  ring

theorem capDayTrim_sum_le (hardLimit : ℤ) (m : Dict) (hnd : (dkeys m).Nodup)
    (hnn : ∀ p ∈ m, 0 ≤ p.2) (h0 : 0 ≤ hardLimit) :
    dsum (capDayTrim hardLimit m).1 ≤ hardLimit := by
  by_cases h : hardLimit < dsum m
  · rw [capDayTrim_sum_eq_of_lt hardLimit m hnd hnn h0 h]
  · rw [capDayTrim_of_le hardLimit m (not_lt.1 h)]
    exact not_lt.1 h

/-! ### The team maps and the initial even weekly allocation -/

theorem mem_keys_dset_self (m : Dict) (k : String) (v : ℤ) : k ∈ dkeys (dset m k v) := by
  by_cases h : k ∈ dkeys m
  · rw [dkeys_dset_of_mem m k v h]
    exact h
  · rw [dkeys_dset_of_not_mem m k v h]
    simp

theorem mem_keys_dset_of_mem (m : Dict) (k k' : String) (v : ℤ) (h : k ∈ dkeys m) :
    k ∈ dkeys (dset m k' v) := by
  by_cases h' : k' ∈ dkeys m
  · rw [dkeys_dset_of_mem m k' v h']
    exact h
  · rw [dkeys_dset_of_not_mem m k' v h']
    exact List.mem_append_left _ h

theorem nodupKeys_foldl_dset (l : List TeamInfo) (g : TeamInfo → ℤ) (acc : Dict)
    (h : (dkeys acc).Nodup) :
    (dkeys (l.foldl (fun m t => dset m t.eq (g t)) acc)).Nodup := by
  induction l generalizing acc with
  | nil => exact h
  | cons t l ih =>
    apply ih
    by_cases ht : t.eq ∈ dkeys acc
    · rw [dkeys_dset_of_mem _ _ _ ht]
      exact h
    · rw [dkeys_dset_of_not_mem _ _ _ ht]
      refine List.Nodup.append h (List.nodup_singleton _) ?_
      intro a ha hb
      rw [List.mem_singleton] at hb
      exact ht (hb ▸ ha)

theorem mem_keys_foldl_of_mem (l : List TeamInfo) (g : TeamInfo → ℤ) (acc : Dict)
    (k : String) (h : k ∈ dkeys acc) :
    k ∈ dkeys (l.foldl (fun m t => dset m t.eq (g t)) acc) := by
  induction l generalizing acc with
  | nil => exact h
  | cons t l ih => exact ih _ (mem_keys_dset_of_mem acc k t.eq (g t) h)

theorem mem_keys_foldl_dset (l : List TeamInfo) (g : TeamInfo → ℤ) (acc : Dict)
    (t : TeamInfo) (ht : t ∈ l) :
    t.eq ∈ dkeys (l.foldl (fun m u => dset m u.eq (g u)) acc) := by
  induction l generalizing acc with
  | nil => simp at ht
  | cons u l ih =>
    rcases List.mem_cons.1 ht with h | h
    · exact h ▸ mem_keys_foldl_of_mem l g _ t.eq (h ▸ mem_keys_dset_self acc u.eq (g u))
    · exact ih _ h

theorem dget_foldl_dset_of_forall_ne (l : List TeamInfo) (g : TeamInfo → ℤ) (acc : Dict)
    (k : String) (h : ∀ t ∈ l, t.eq ≠ k) :
    dget (l.foldl (fun m t => dset m t.eq (g t)) acc) k = dget acc k := by
  induction l generalizing acc with
  | nil => rfl
  | cons t l ih =>
    rw [List.foldl_cons, ih _ (fun u hu => h u (List.mem_cons_of_mem _ hu)),
      dget_dset_ne acc t.eq k (g t) (fun he => h t (List.mem_cons_self _ _) he.symm)]

theorem dget_foldl_dset (l : List TeamInfo) (g : TeamInfo → ℤ) (acc : Dict)
    (hnd : (l.map (·.eq)).Nodup) (t : TeamInfo) (ht : t ∈ l) :
    dget (l.foldl (fun m u => dset m u.eq (g u)) acc) t.eq = g t := by
  induction l generalizing acc with
  | nil => simp at ht
  | cons u l ih =>
    rw [List.map_cons, List.nodup_cons] at hnd
    rcases List.mem_cons.1 ht with h | h
    · subst h
      rw [List.foldl_cons,
        dget_foldl_dset_of_forall_ne l g _ t.eq
          (fun v hv he => hnd.1 (he ▸ List.mem_map_of_mem (·.eq) hv)),
        dget_dset_self]
    · exact ih _ hnd.2 h

theorem forall_val_foldl_dset {P : ℤ → Prop} (l : List TeamInfo) (g : TeamInfo → ℤ)
    (acc : Dict) (hacc : ∀ p ∈ acc, P p.2) (hl : ∀ t ∈ l, P (g t)) :
    ∀ p ∈ l.foldl (fun m t => dset m t.eq (g t)) acc, P p.2 := by
  induction l generalizing acc with
  | nil => exact hacc
  | cons t l ih =>
    refine ih _ ?_ (fun u hu => hl u (List.mem_cons_of_mem _ hu))
    exact forall_mem_dset acc t.eq (g t) hacc (hl t (List.mem_cons_self _ _))

theorem dkeys_foldl_dset_congr (l : List TeamInfo) (g g' : TeamInfo → ℤ) (acc acc' : Dict)
    (h : dkeys acc = dkeys acc') :
    dkeys (l.foldl (fun m t => dset m t.eq (g t)) acc) =
      dkeys (l.foldl (fun m t => dset m t.eq (g' t)) acc') := by
  induction l generalizing acc acc' with
  | nil => exact h
  | cons t l ih =>
    apply ih
    by_cases ht : t.eq ∈ dkeys acc
    · rw [dkeys_dset_of_mem _ _ _ ht, dkeys_dset_of_mem _ _ _ (h ▸ ht), h]
    · rw [dkeys_dset_of_not_mem _ _ _ ht, dkeys_dset_of_not_mem _ _ _ (h ▸ ht), h]

theorem perMapOf_keys_nodup (teams : List TeamInfo) : (dkeys (perMapOf teams)).Nodup :=
  nodupKeys_foldl_dset teams (·.per) [] (by simp [dkeys_nil])

theorem minMapOf_keys_nodup (teams : List TeamInfo) : (dkeys (minMapOf teams)).Nodup :=
  nodupKeys_foldl_dset teams (·.mini) [] (by simp [dkeys_nil])

theorem mem_keys_perMapOf (teams : List TeamInfo) (t : TeamInfo) (ht : t ∈ teams) :
    t.eq ∈ dkeys (perMapOf teams) :=
  mem_keys_foldl_dset teams (·.per) [] t ht

theorem dget_perMapOf (teams : List TeamInfo) (hnd : (teams.map (·.eq)).Nodup)
    (t : TeamInfo) (ht : t ∈ teams) : dget (perMapOf teams) t.eq = t.per :=
  dget_foldl_dset teams (·.per) [] hnd t ht

theorem dget_minMapOf (teams : List TeamInfo) (hnd : (teams.map (·.eq)).Nodup)
    (t : TeamInfo) (ht : t ∈ teams) : dget (minMapOf teams) t.eq = t.mini :=
  dget_foldl_dset teams (·.mini) [] hnd t ht

theorem perMapOf_nonneg (teams : List TeamInfo) (hper : ∀ t ∈ teams, 0 ≤ t.per) :
    ∀ p ∈ perMapOf teams, 0 ≤ p.2 :=
  forall_val_foldl_dset teams (·.per) [] (by simp) hper

theorem dkeys_minMapOf_eq (teams : List TeamInfo) :
    dkeys (minMapOf teams) = dkeys (perMapOf teams) :=
  dkeys_foldl_dset_congr teams (·.mini) (·.per) [] [] rfl

theorem foldl_dset_rebuild_aux (m : Dict) (acc : Dict)
    (hdisj : ∀ k ∈ dkeys m, k ∉ dkeys acc) (hnd : (dkeys m).Nodup) :
    m.foldl (fun a p => dset a p.1 p.2) acc = acc ++ m := by
  induction m generalizing acc with
  | nil => simp
  | cons p m ih =>
    rw [dkeys_cons, List.nodup_cons] at hnd
    have hp : p.1 ∉ dkeys acc := hdisj p.1 (by rw [dkeys_cons]; simp)
    rw [List.foldl_cons, dset_of_not_mem acc p.1 p.2 hp]
    have hdisj' : ∀ k ∈ dkeys m, k ∉ dkeys (acc ++ [(p.1, p.2)]) := by
      intro k hk hmem
      rw [dkeys, List.map_append] at hmem
      rcases List.mem_append.1 hmem with hmem | hmem
      · exact hdisj k (by rw [dkeys_cons]; exact List.mem_cons_of_mem _ hk) hmem
      · simp at hmem
        exact hnd.1 (hmem ▸ hk)
    rw [ih _ hdisj' hnd.2, List.append_assoc]
    rfl

theorem foldl_dset_rebuild (m : Dict) (hnd : (dkeys m).Nodup) :
    m.foldl (fun a p => dset a p.1 p.2) [] = m := by
  rw [foldl_dset_rebuild_aux m [] (by simp [dkeys_nil]) hnd, List.nil_append]

theorem WeekAlloc.get_empty (d : Day) : WeekAlloc.empty.get d = [] := by
  cases d <;> rfl

theorem ediv_mul5 (n : ℤ) : Int.ediv (n * 5) 5 = n := Int.mul_ediv_cancel n (by norm_num)

theorem emod_mul5 (n : ℤ) : Int.emod (n * 5) 5 = 0 := Int.mul_emod_left n 5

theorem evenWeekSplit_mul5 (n : ℤ) (hn : 0 ≤ n) (r : Rng) (d : Day) :
    ((evenWeekSplit (n * 5) r).1) d = n := by
  by_cases h : n * 5 ≤ 0
  · have hn0 : n = 0 := le_antisymm (by nlinarith) hn
    simp [evenWeekSplit, h, hn0]
  · simp [evenWeekSplit, h, ediv_mul5, emod_mul5]

theorem buildDayAlloc_get (wt : List (String × ℤ)) (w : WeekAlloc) (r : Rng)
    (h : ∀ p ∈ wt, ∃ n : ℤ, 0 ≤ n ∧ p.2 = n * 5) (d : Day) :
    ((buildDayAlloc wt w r).1).get d =
      wt.foldl (fun m p => dset m p.1 (Int.ediv p.2 5)) (w.get d) := by
  induction wt generalizing w r with
  | nil => rfl
  | cons p wt ih =>
    obtain ⟨n, hn, hp⟩ := h p (List.mem_cons_self _ _)
    simp only [buildDayAlloc, List.foldl_cons]
    rw [ih _ _ (fun q hq => h q (List.mem_cons_of_mem _ hq))]
    rw [WeekAlloc.get_mapD]
    congr 1
    rw [hp, evenWeekSplit_mul5 n hn r d, ediv_mul5 n]

theorem preAlloc_eq (teams : List TeamInfo) (hper : ∀ t ∈ teams, 0 ≤ t.per)
    (r : Rng) (d : Day) :
    ((buildDayAlloc (weeklyTargetOf teams) WeekAlloc.empty r).1).get d = perMapOf teams := by
  rw [buildDayAlloc_get _ _ _ ?hmem d]
  case hmem =>
    intro p hp
    obtain ⟨q, hq, rfl⟩ := List.mem_map.1 hp
    exact ⟨q.2, perMapOf_nonneg teams hper q hq, rfl⟩
  rw [WeekAlloc.get_empty, weeklyTargetOf, List.foldl_map]
  rw [List.foldl_ext _ (fun (a : Dict) (q : String × ℤ) => dset a q.1 q.2) []
    (fun a q _ => by rw [ediv_mul5 q.2])]
  exact foldl_dset_rebuild _ (perMapOf_keys_nodup teams)

/-! ### The allocation invariant through steps (2) and (3) -/

/-- The invariant carried through a floor pass: every day's dict has the team
map's keys, dominates the team map pointwise, and is nonnegative. -/
def AllocInv (pm : Dict) (w : WeekAlloc) : Prop :=
  ∀ d : Day, dkeys (w.get d) = dkeys pm ∧ (∀ p ∈ pm, p.2 ≤ dget (w.get d) p.1) ∧
    (∀ p ∈ w.get d, 0 ≤ p.2)

theorem allocInv_init (teams : List TeamInfo) (hper : ∀ t ∈ teams, 0 ≤ t.per) (r : Rng) :
    AllocInv (perMapOf teams) (buildDayAlloc (weeklyTargetOf teams) WeekAlloc.empty r).1 := by
  intro d
  rw [preAlloc_eq teams hper r d]
  exact ⟨rfl,
    fun p hp => le_of_eq (dget_of_mem_nodup _ p (perMapOf_keys_nodup teams) hp).symm,
    perMapOf_nonneg teams hper⟩

theorem allocInv_set_pin (pm : Dict) (w : WeekAlloc) (hinv : AllocInv pm w)
    (d0 : Day) (k : String) (v : ℤ) (hk : k ∈ dkeys pm)
    (hv : dget (w.get d0) k ≤ v) :
    AllocInv pm (w.set d0 (dset (w.get d0) k v)) := by
  intro d
  by_cases hd : d0 = d
  · subst hd
    rw [WeekAlloc.get_set_self]
    obtain ⟨hkeys, hmono, hnn⟩ := hinv d0
    have hkm : k ∈ dkeys (w.get d0) := hkeys ▸ hk
    refine ⟨by rw [dkeys_dset_of_mem _ _ _ hkm, hkeys], ?_, ?_⟩
    · intro p hp
      rw [dget_dset]
      by_cases hpk : p.1 = k
      · rw [if_pos hpk]
        exact le_trans (hmono p hp) ((congrArg (dget (w.get d0)) hpk) ▸ hv)
      · rw [if_neg hpk]
        exact hmono p hp
    · exact forall_mem_dset _ _ _ hnn (le_trans (dget_nonneg _ hnn k) hv)
  · rw [WeekAlloc.get_set_ne w d0 d _ hd]
    exact hinv d

theorem allocInv_applyFullDayFixed (pm : Dict) (k : String) (hk : k ∈ dkeys pm)
    (per : ℤ) (days : List Day) (w : WeekAlloc) (hinv : AllocInv pm w) :
    AllocInv pm (applyFullDayFixed w k per days) := by
  induction days generalizing w with
  | nil => exact hinv
  | cons d days ih =>
    show AllocInv pm (List.foldl _ _ days)
    by_cases hd : diasSemana.contains d
    · simp only [List.foldl_cons, if_pos hd]
      exact ih _ (allocInv_set_pin pm w hinv d k _ hk (le_max_left _ _))
    · simp only [List.foldl_cons, if_neg hd]
      exact ih _ hinv

theorem allocInv_applyFullDayChoice (pm : Dict) (k : String) (hk : k ∈ dkeys pm)
    (per : ℤ) (chosen : Option Day) (w : WeekAlloc) (hinv : AllocInv pm w) :
    AllocInv pm (applyFullDayChoice w k per chosen) := by
  cases chosen with
  | none => exact hinv
  | some d =>
    by_cases hd : diasSemana.contains d
    · simp only [applyFullDayChoice, if_pos hd]
      exact allocInv_set_pin pm w hinv d k _ hk (le_max_left _ _)
    · simp only [applyFullDayChoice, if_neg hd]
      exact hinv

theorem allocInv_ensureMinimums (pm : Dict) (k : String) (hk : k ∈ dkeys pm)
    (per mini : ℤ) (w : WeekAlloc) (hinv : AllocInv pm w) :
    AllocInv pm (ensureMinimums w k per mini) := by
  unfold ensureMinimums
  by_cases ht : min per mini ≤ 0
  · simpa [ht] using hinv
  · simp only [if_neg ht]
    have hpos : 0 < min per mini := not_le.1 ht
    generalize diasSemana = ds
    induction ds generalizing w with
    | nil => exact hinv
    | cons d ds ih =>
      simp only [List.foldl_cons]
      by_cases hcur : dget (w.get d) k < min per mini
      · simp only [if_pos hcur]
        exact ih _ (allocInv_set_pin pm w hinv d k _ hk (le_of_lt hcur))
      · simp only [if_neg hcur]
        exact ih _ hinv

theorem allocInv_applyRules (pm : Dict) (reglas : List (String × Rule))
    (asg : List (String × Day)) (l : List TeamInfo) (w : WeekAlloc)
    (hinv : AllocInv pm w) (hkeys : ∀ t ∈ l, t.eq ∈ dkeys pm) :
    AllocInv pm (applyRules reglas asg l w) := by
  induction l generalizing w with
  | nil => exact hinv
  | cons t l ih =>
    show AllocInv pm (List.foldl _ _ l)
    have hkt : t.eq ∈ dkeys pm := hkeys t (List.mem_cons_self _ _)
    have hkeys' : ∀ u ∈ l, u.eq ∈ dkeys pm := fun u hu => hkeys u (List.mem_cons_of_mem _ hu)
    cases hr : lookupRule reglas (normalizeText t.eq) with
    | none => simp only [List.foldl_cons, hr]; exact ih _ hinv hkeys'
    | some rule =>
      cases rule with
      | fixedDays days =>
        simp only [List.foldl_cons, hr]
        exact ih _ (allocInv_applyFullDayFixed pm t.eq hkt t.per days w hinv) hkeys'
      | choiceDays days =>
        simp only [List.foldl_cons, hr]
        exact ih _ (allocInv_applyFullDayChoice pm t.eq hkt t.per _ w hinv) hkeys'

theorem allocInv_applyMinimums (pm : Dict) (l : List TeamInfo) (w : WeekAlloc)
    (hinv : AllocInv pm w) (hkeys : ∀ t ∈ l, t.eq ∈ dkeys pm) :
    AllocInv pm (applyMinimums l w) := by
  induction l generalizing w with
  | nil => exact hinv
  | cons t l ih =>
    show AllocInv pm (List.foldl _ _ l)
    simp only [List.foldl_cons]
    exact ih _ (allocInv_ensureMinimums pm t.eq (hkeys t (List.mem_cons_self _ _)) t.per t.mini w hinv)
      (fun u hu => hkeys u (List.mem_cons_of_mem _ hu))

theorem allocInv_fullDaySection (reglas : List (String × Rule)) (ign : Bool) (mode : String)
    (pisoStr : String) (hard : ℤ) (teams : List TeamInfo) (w : WeekAlloc) (rng : Rng)
    (hinv : AllocInv (perMapOf teams) w) :
    AllocInv (perMapOf teams) (fullDaySection reglas ign mode pisoStr hard teams w rng).1 := by
  unfold fullDaySection
  by_cases h : ign = false ∧ reglas ≠ []
  · simp only [if_pos h]
    exact allocInv_applyMinimums _ teams _
      (allocInv_applyRules _ reglas _ teams w hinv (fun t ht => mem_keys_perMapOf teams t ht))
      (fun t ht => mem_keys_perMapOf teams t ht)
  · simp only [if_neg h]
    exact hinv

/-! ### Step (3) unfolded, and the Sainte-Laguë fill step is a no-op -/

theorem capAndDeficits_get (piso : String) (pm mm : Dict) (hard : ℤ) (ign : Bool)
    (w : WeekAlloc) (d : Day) :
    ((capAndDeficits piso pm mm hard ign w).1).get d = (capDayTrim hard (w.get d)).1 := by
  cases d <;> rfl

theorem capAndDeficits_deficits (piso : String) (pm mm : Dict) (hard : ℤ) (ign : Bool)
    (w : WeekAlloc) :
    (capAndDeficits piso pm mm hard ign w).2.2 =
      collectDeficitsDay piso pm mm ign .lunes (capDayTrim hard (w.get .lunes)).1 ++
      collectDeficitsDay piso pm mm ign .martes (capDayTrim hard (w.get .martes)).1 ++
      collectDeficitsDay piso pm mm ign .miercoles (capDayTrim hard (w.get .miercoles)).1 ++
      collectDeficitsDay piso pm mm ign .jueves (capDayTrim hard (w.get .jueves)).1 ++
      collectDeficitsDay piso pm mm ign .viernes (capDayTrim hard (w.get .viernes)).1 := rfl

theorem saintLague_zero (weights : Dict) (seats : ℤ) (current : Dict) (caps : Option Dict)
    (rng : Rng) (hw : ∀ p ∈ weights, p.2 ≤ 0) :
    saintLagueAllocate weights seats current caps rng =
      (weights.map (fun p => (p.1, 0)), rng) := by
  unfold saintLagueAllocate
  by_cases h : seats ≤ 0 ∨ weights = []
  · simp [h]
  · simp only [if_neg h]
    have hcand : slCandidates weights current (weights.map (fun p => (p.1, 0))) caps = [] := by
      unfold slCandidates
      rw [List.filterMap_eq_nil_iff]
      intro p hp
      simp [hw p hp]
    cases hn : seats.toNat with
    | zero => rfl
    | succ n => simp [slLoop, hcand]

theorem foldl_add_zero_vals (l : Dict) (alloc : Dict) (h : ∀ p ∈ l, p.2 = 0) :
    l.foldl (fun a p => if p.2 ≠ 0 then dset a p.1 (dget a p.1 + p.2) else a) alloc = alloc := by
  induction l generalizing alloc with
  | nil => rfl
  | cons p l ih =>
    rw [List.foldl_cons]
    have hp : p.2 = 0 := h p (List.mem_cons_self _ _)
    simp only [hp, ne_eq, not_true_eq_false, if_false, ite_false]
    exact ih _ (fun q hq => h q (List.mem_cons_of_mem _ hq))

theorem fillDay_noop (perMap : Dict) (hard : ℤ) (alloc : Dict) (rng : Rng)
    (h : dsum alloc < hard → ∀ p ∈ perMap, p.2 ≤ dget alloc p.1) :
    fillDay perMap hard alloc rng = (alloc, rng) := by
  unfold fillDay
  by_cases hrem : max 0 (hard - dsum alloc) ≤ 0
  · simp [hrem]
  · have hlt : dsum alloc < hard := by
      by_contra hc
      exact hrem (by simp; linarith [not_lt.1 hc])
    have hw : ∀ p ∈ perMap.map (fun p => (p.1, max 0 (p.2 - dget alloc p.1))), p.2 ≤ 0 := by
      intro p hp
      obtain ⟨q, hq, rfl⟩ := List.mem_map.1 hp
      simp
      linarith [h hlt q hq]
    simp only [if_neg hrem]
    rw [saintLague_zero _ _ _ _ _ hw]
    rw [foldl_add_zero_vals _ _ (by
      intro p hp
      obtain ⟨q, hq, rfl⟩ := List.mem_map.1 hp
      rfl)]

theorem fillAllDays_noop (perMap : Dict) (hard : ℤ) (w : WeekAlloc) (rng : Rng)
    (h : ∀ d, dsum (w.get d) < hard → ∀ p ∈ perMap, p.2 ≤ dget (w.get d) p.1) :
    fillAllDays perMap hard w rng = (w, rng) := by
  unfold fillAllDays
  simp only [diasSemana, List.foldl_cons, List.foldl_nil]
  rw [fillDay_noop perMap hard (w.get .lunes) rng (h .lunes), WeekAlloc.set_get_self]
  rw [fillDay_noop perMap hard (w.get .martes) rng (h .martes), WeekAlloc.set_get_self]
  rw [fillDay_noop perMap hard (w.get .miercoles) rng (h .miercoles), WeekAlloc.set_get_self]
  rw [fillDay_noop perMap hard (w.get .jueves) rng (h .jueves), WeekAlloc.set_get_self]
  rw [fillDay_noop perMap hard (w.get .viernes) rng (h .viernes), WeekAlloc.set_get_self]

theorem steps_alloc (reglas : List (String × Rule)) (ign : Bool) (mode : String)
    (pisoStr : String) (capTotal reserva : ℤ) (teams : List TeamInfo) (rng : Rng) :
    (processFloorSteps reglas ign mode pisoStr capTotal reserva teams rng).alloc =
      (capAndDeficits pisoStr (perMapOf teams) (minMapOf teams) (max 0 (capTotal - reserva)) ign
        (fullDaySection reglas ign mode pisoStr (max 0 (capTotal - reserva)) teams
          (buildDayAlloc (weeklyTargetOf teams) WeekAlloc.empty rng).1
          (buildDayAlloc (weeklyTargetOf teams) WeekAlloc.empty rng).2).1).1 := rfl

theorem steps_deficits (reglas : List (String × Rule)) (ign : Bool) (mode : String)
    (pisoStr : String) (capTotal reserva : ℤ) (teams : List TeamInfo) (rng : Rng) :
    (processFloorSteps reglas ign mode pisoStr capTotal reserva teams rng).deficits =
      (capAndDeficits pisoStr (perMapOf teams) (minMapOf teams) (max 0 (capTotal - reserva)) ign
        (fullDaySection reglas ign mode pisoStr (max 0 (capTotal - reserva)) teams
          (buildDayAlloc (weeklyTargetOf teams) WeekAlloc.empty rng).1
          (buildDayAlloc (weeklyTargetOf teams) WeekAlloc.empty rng).2).1).2.2 := rfl

theorem steps_hard (reglas : List (String × Rule)) (ign : Bool) (mode : String)
    (pisoStr : String) (capTotal reserva : ℤ) (teams : List TeamInfo) (rng : Rng) :
    (processFloorSteps reglas ign mode pisoStr capTotal reserva teams rng).hard =
      max 0 (capTotal - reserva) := rfl

theorem steps_libres (reglas : List (String × Rule)) (ign : Bool) (mode : String)
    (pisoStr : String) (capTotal reserva : ℤ) (teams : List TeamInfo) (rng : Rng) :
    (processFloorSteps reglas ign mode pisoStr capTotal reserva teams rng).libres =
      (if reserva ≤ capTotal then reserva else capTotal) := rfl

theorem steps_teams (reglas : List (String × Rule)) (ign : Bool) (mode : String)
    (pisoStr : String) (capTotal reserva : ℤ) (teams : List TeamInfo) (rng : Rng) :
    (processFloorSteps reglas ign mode pisoStr capTotal reserva teams rng).teams = teams := rfl

theorem steps_capTotal (reglas : List (String × Rule)) (ign : Bool) (mode : String)
    (pisoStr : String) (capTotal reserva : ℤ) (teams : List TeamInfo) (rng : Rng) :
    (processFloorSteps reglas ign mode pisoStr capTotal reserva teams rng).capTotal =
      capTotal := rfl

/-- The final allocation of a floor pass, day by day: the full-day-adjusted
dict trimmed to the hard limit. -/
theorem steps_alloc_get (reglas : List (String × Rule)) (ign : Bool) (mode : String)
    (pisoStr : String) (capTotal reserva : ℤ) (teams : List TeamInfo) (rng : Rng) (d : Day) :
    ((processFloorSteps reglas ign mode pisoStr capTotal reserva teams rng).alloc).get d =
      (capDayTrim (max 0 (capTotal - reserva))
        ((fullDaySection reglas ign mode pisoStr (max 0 (capTotal - reserva)) teams
          (buildDayAlloc (weeklyTargetOf teams) WeekAlloc.empty rng).1
          (buildDayAlloc (weeklyTargetOf teams) WeekAlloc.empty rng).2).1.get d)).1 := by
  rw [steps_alloc, capAndDeficits_get]

/-- The invariant holds for the full-day-adjusted allocation of any floor
pass whose teams have nonnegative headcounts. -/
theorem steps_fd_inv (reglas : List (String × Rule)) (ign : Bool) (mode : String)
    (pisoStr : String) (hard : ℤ) (teams : List TeamInfo) (rng : Rng)
    (hper : ∀ t ∈ teams, 0 ≤ t.per) :
    AllocInv (perMapOf teams)
      (fullDaySection reglas ign mode pisoStr hard teams
        (buildDayAlloc (weeklyTargetOf teams) WeekAlloc.empty rng).1
        (buildDayAlloc (weeklyTargetOf teams) WeekAlloc.empty rng).2).1 :=
  allocInv_fullDaySection reglas ign mode pisoStr hard teams _ _
    (allocInv_init teams hper rng)

/-- On every floor pass with nonnegative headcounts, the Sainte-Laguë fill
step leaves both the allocation and the generator untouched: either the day
was trimmed exactly to the hard limit, or every team already holds its full
headcount and no demand remains. -/
theorem steps_fill_noop (reglas : List (String × Rule)) (ign : Bool) (mode : String)
    (pisoStr : String) (capTotal reserva : ℤ) (teams : List TeamInfo) (rng : Rng)
    (hper : ∀ t ∈ teams, 0 ≤ t.per) :
    fillAllDays (perMapOf teams)
      (processFloorSteps reglas ign mode pisoStr capTotal reserva teams rng).hard
      (processFloorSteps reglas ign mode pisoStr capTotal reserva teams rng).alloc
      (processFloorSteps reglas ign mode pisoStr capTotal reserva teams rng).rng =
      ((processFloorSteps reglas ign mode pisoStr capTotal reserva teams rng).alloc,
       (processFloorSteps reglas ign mode pisoStr capTotal reserva teams rng).rng) := by
  set hard := max 0 (capTotal - reserva) with hh
  have hhard : (processFloorSteps reglas ign mode pisoStr capTotal reserva teams rng).hard =
      hard := rfl
  rw [hhard]
  apply fillAllDays_noop
  intro d hlt p hp
  rw [steps_alloc_get] at hlt ⊢
  set A := (fullDaySection reglas ign mode pisoStr hard teams
    (buildDayAlloc (weeklyTargetOf teams) WeekAlloc.empty rng).1
    (buildDayAlloc (weeklyTargetOf teams) WeekAlloc.empty rng).2).1.get d with hA
  obtain ⟨hkeys, hmono, hnn⟩ := steps_fd_inv reglas ign mode pisoStr hard teams rng hper d
  rw [← hA] at hkeys hmono hnn
  by_cases hcap : dsum A ≤ hard
  · rw [capDayTrim_of_le hard A hcap] at hlt ⊢
    exact hmono p hp
  · have hnd : (dkeys A).Nodup := hkeys ▸ perMapOf_keys_nodup teams
    have := capDayTrim_sum_eq_of_lt hard A hnd hnn (le_max_left _ _) (not_le.1 hcap)
    rw [this] at hlt
    exact absurd hlt (lt_irrefl hard)

/-! ### Claim C3: the fill step never allocates anything -/

theorem mkEquiposInfo_per_nonneg (rows : List RosterRow) :
    ∀ t ∈ mkEquiposInfo rows, 0 ≤ t.per := by
  intro t ht
  obtain ⟨r, _, hr⟩ := List.mem_filterMap.1 ht
  by_cases he : r.equipo = ""
  · simp [he] at hr
  · simp only [he, if_false, ite_false, Option.some.injEq] at hr
    rw [← hr]
    exact le_max_left _ _

theorem mkEquiposInfo_mini_le (rows : List RosterRow) :
    ∀ t ∈ mkEquiposInfo rows, t.mini ≤ t.per := by
  intro t ht
  obtain ⟨r, _, hr⟩ := List.mem_filterMap.1 ht
  by_cases he : r.equipo = ""
  · simp [he] at hr
  · simp only [he, if_false, ite_false, Option.some.injEq] at hr
    rw [← hr]
    exact min_le_left _ _

theorem processFloorPre_inv (reglas : List (String × Rule)) (ign : Bool) (mode : String)
    (capMap : Dict) (reserva : ℤ) (rows : List RosterRow) (pisoRaw : String) (rng : Rng)
    (pre : FloorPre)
    (h : processFloorPre reglas ign mode capMap reserva rows pisoRaw rng = some pre) :
    ∃ pisoStr, extractNum pisoRaw = some pisoStr ∧
      pre = processFloorSteps reglas ign mode pisoStr
        (capTotalRealOf capMap reserva pisoStr
          (rows.filter (fun r => r.piso == some pisoRaw))) reserva
        (mkEquiposInfo (rows.filter (fun r => r.piso == some pisoRaw))) rng := by
  unfold processFloorPre at h
  cases he : extractNum pisoRaw with
  | none => rw [he] at h; exact absurd h (by simp)
  | some pisoStr =>
    rw [he] at h
    dsimp only at h
    by_cases h1 : (rows.filter (fun r => r.piso == some pisoRaw)).isEmpty
    · rw [if_pos h1] at h
      exact absurd h (by simp)
    · rw [if_neg h1] at h
      by_cases h2 : (mkEquiposInfo (rows.filter (fun r => r.piso == some pisoRaw))).isEmpty
      · rw [if_pos h2] at h
        exact absurd h (by simp)
      · rw [if_neg h2] at h
        exact ⟨pisoStr, rfl, (Option.some.inj h).symm⟩

theorem floorCoreOf_eq_noFill (reglas : List (String × Rule)) (ign : Bool) (mode : String)
    (pisoStr : String) (capTotal reserva : ℤ) (teams : List TeamInfo) (rng : Rng)
    (hper : ∀ t ∈ teams, 0 ≤ t.per) :
    floorCoreOf (processFloorSteps reglas ign mode pisoStr capTotal reserva teams rng) =
      floorCoreOfNoFill (processFloorSteps reglas ign mode pisoStr capTotal reserva teams rng) := by
  unfold floorCoreOf floorCoreOfNoFill
  rw [steps_teams, steps_fill_noop reglas ign mode pisoStr capTotal reserva teams rng hper]

theorem floorCoresGo_eq_noFill (inp : EngineInput) (capMap : Dict) (reserva : ℤ)
    (raws : List String) (rng : Rng) :
    floorCoresGo inp capMap reserva raws rng = floorCoresNoFillGo inp capMap reserva raws rng := by
  induction raws generalizing rng with
  | nil => rfl
  | cons raw raws ih =>
    simp only [floorCoresGo, floorCoresNoFillGo]
    cases hp : processFloorPre inp.reglas inp.ignoreParams inp.variantMode capMap reserva
        inp.equiposRows raw rng with
    | none => exact ih rng
    | some pre =>
      obtain ⟨s, _, hpre⟩ := processFloorPre_inv _ _ _ _ _ _ _ _ _ hp
      have hcore : floorCoreOf pre = floorCoreOfNoFill pre := by
        rw [hpre]
        exact floorCoreOf_eq_noFill _ _ _ _ _ _ _ _ (mkEquiposInfo_per_nonneg _)
      dsimp only
      rw [hcore, ih _]

theorem floorCores_eq_noFill (inp : EngineInput) :
    floorCores inp = floorCoresNoFill inp := by
  unfold floorCores floorCoresNoFill
  by_cases h1 : inp.equiposRows.isEmpty
  · simp [h1]
  · by_cases h2 : colsOk inp.equiposCols
    · simp [h1, h2, floorCoresGo_eq_noFill]
    · simp [h1, h2]

/-- **C3**: the engine's output is identical to that of the same pipeline
with the final Sainte-Laguë remainder step
(`_fill_remaining_by_day_saint_lague`) removed.  The initial even weekly
split hands every team exactly its headcount on every day (the weekly target
is `headcount × 5` over 5 days), every later step only lowers allocations or
re-pins them at headcount, and the trim leaves each day either untouched or
exactly at the hard limit — so the remainder step finds either no unused
capacity or no remaining demand, allocates nothing, and draws nothing from
the generator.  Both the full results and the per-floor day allocations
coincide. -/
theorem claim_C3_fill_step_is_noop (g : Rng) (inp : EngineInput) :
    compute g inp = computeNoFill g inp ∧ floorCores inp = floorCoresNoFill inp := by
  refine ⟨?_, floorCores_eq_noFill inp⟩
  unfold compute computeNoFill
  rw [floorCores_eq_noFill]

/-- **C4**: determinism.  Two runs of `compute_distribution_from_excel` on
identical inputs with the same `variant_seed` return identical rows, deficit
reports, audit trails and scores.  The embedding threads the interpreter's
ambient random state as the explicit `g`/`g'` argument; the engine never
reads it — all randomness comes from the `random.Random(variant_seed)`
instance — so the result does not depend on it at all. -/
theorem claim_C4_determinism (inp : EngineInput) (g g' : Rng) :
    compute g inp = compute g' inp ∧
    (compute g inp).rows = (compute g' inp).rows ∧
    (compute g inp).deficits = (compute g' inp).deficits ∧
    (compute g inp).audit = (compute g' inp).audit ∧
    (compute g inp).score = (compute g' inp).score :=
  ⟨rfl, rfl, rfl, rfl, rfl⟩

/-! ### With duplicate-free team names, steps (2) leave the allocation
literally unchanged -/

theorem applyFullDayFixed_id (w : WeekAlloc) (k : String) (per : ℤ) (days : List Day)
    (hk : ∀ d, k ∈ dkeys (w.get d)) (hval : ∀ d, per ≤ dget (w.get d) k) :
    applyFullDayFixed w k per days = w := by
  induction days with
  | nil => rfl
  | cons d days ih =>
    show List.foldl _ _ (d :: days) = w
    rw [List.foldl_cons]
    by_cases hd : diasSemana.contains d
    · rw [if_pos hd, max_eq_left (hval d), dset_dget_self _ _ (hk d),
        WeekAlloc.set_get_self]
      exact ih
    · rw [if_neg hd]
      exact ih

theorem applyFullDayChoice_id (w : WeekAlloc) (k : String) (per : ℤ) (chosen : Option Day)
    (hk : ∀ d, k ∈ dkeys (w.get d)) (hval : ∀ d, per ≤ dget (w.get d) k) :
    applyFullDayChoice w k per chosen = w := by
  cases chosen with
  | none => rfl
  | some d =>
    by_cases hd : diasSemana.contains d
    · simp only [applyFullDayChoice, if_pos hd]
      rw [max_eq_left (hval d), dset_dget_self _ _ (hk d), WeekAlloc.set_get_self]
    · simp only [applyFullDayChoice, if_neg hd]

theorem ensureMinimums_id (w : WeekAlloc) (k : String) (per mini : ℤ)
    (hval : ∀ d, min per mini ≤ dget (w.get d) k) :
    ensureMinimums w k per mini = w := by
  unfold ensureMinimums
  by_cases ht : min per mini ≤ 0
  · simp [ht]
  · simp only [if_neg ht]
    generalize diasSemana = ds
    induction ds with
    | nil => rfl
    | cons d ds ih =>
      rw [List.foldl_cons, if_neg (not_lt.2 (hval d))]
      exact ih

theorem applyRules_id (reglas : List (String × Rule)) (asg : List (String × Day))
    (l : List TeamInfo) (w : WeekAlloc)
    (h : ∀ t ∈ l, (∀ d, t.eq ∈ dkeys (w.get d)) ∧ (∀ d, t.per ≤ dget (w.get d) t.eq)) :
    applyRules reglas asg l w = w := by
  induction l with
  | nil => rfl
  | cons t l ih =>
    show List.foldl _ _ (t :: l) = w
    rw [List.foldl_cons]
    have ht := h t (List.mem_cons_self _ _)
    have hstep : (match lookupRule reglas (normalizeText t.eq) with
        | some (.fixedDays days) => applyFullDayFixed w t.eq t.per days
        | some (.choiceDays _) =>
          applyFullDayChoice w t.eq t.per (lookupAsg asg (normalizeText t.eq))
        | none => w) = w := by
      cases hr : lookupRule reglas (normalizeText t.eq) with
      | none => rfl
      | some rule =>
        cases rule with
        | fixedDays days => exact applyFullDayFixed_id w t.eq t.per days ht.1 ht.2
        | choiceDays days => exact applyFullDayChoice_id w t.eq t.per _ ht.1 ht.2
    rw [hstep]
    exact ih (fun u hu => h u (List.mem_cons_of_mem _ hu))

theorem applyMinimums_id (l : List TeamInfo) (w : WeekAlloc)
    (h : ∀ t ∈ l, ∀ d, min t.per t.mini ≤ dget (w.get d) t.eq) :
    applyMinimums l w = w := by
  induction l with
  | nil => rfl
  | cons t l ih =>
    show List.foldl _ _ (t :: l) = w
    rw [List.foldl_cons, ensureMinimums_id w t.eq t.per t.mini (h t (List.mem_cons_self _ _))]
    exact ih (fun u hu => h u (List.mem_cons_of_mem _ hu))

theorem fullDaySection_fst_id (reglas : List (String × Rule)) (ign : Bool) (mode : String)
    (pisoStr : String) (hard : ℤ) (teams : List TeamInfo) (w : WeekAlloc) (rng : Rng)
    (hk : ∀ t ∈ teams, ∀ d, t.eq ∈ dkeys (w.get d))
    (hper : ∀ t ∈ teams, ∀ d, t.per ≤ dget (w.get d) t.eq)
    (hmin : ∀ t ∈ teams, ∀ d, min t.per t.mini ≤ dget (w.get d) t.eq) :
    (fullDaySection reglas ign mode pisoStr hard teams w rng).1 = w := by
  unfold fullDaySection
  by_cases h : ign = false ∧ reglas ≠ []
  · simp only [if_pos h]
    rw [applyRules_id reglas _ teams w (fun t ht => ⟨hk t ht, hper t ht⟩),
      applyMinimums_id teams w hmin]
  · simp only [if_neg h]

/-- With duplicate-free, nonnegative team names the final allocation of a
floor pass is, on every day, the trimmed team map itself. -/
theorem steps_alloc_get_nodup (reglas : List (String × Rule)) (ign : Bool) (mode : String)
    (pisoStr : String) (capTotal reserva : ℤ) (teams : List TeamInfo) (rng : Rng)
    (hnd : (teams.map (·.eq)).Nodup) (hper : ∀ t ∈ teams, 0 ≤ t.per) (d : Day) :
    ((processFloorSteps reglas ign mode pisoStr capTotal reserva teams rng).alloc).get d =
      (capDayTrim (max 0 (capTotal - reserva)) (perMapOf teams)).1 := by
  rw [steps_alloc_get]
  congr 1
  rw [fullDaySection_fst_id _ _ _ _ _ teams _ _
    (fun t ht d' => by rw [preAlloc_eq teams hper rng d']; exact mem_keys_perMapOf teams t ht)
    (fun t ht d' => by
      rw [preAlloc_eq teams hper rng d', dget_perMapOf teams hnd t ht])
    (fun t ht d' => by
      rw [preAlloc_eq teams hper rng d', dget_perMapOf teams hnd t ht]
      exact min_le_left _ _)]
  exact congrArg _ (preAlloc_eq teams hper rng d)

/-! ### The emitted rows of a floor pass -/

/-- The team rows emitted for one day (positive assignments only). -/
def dayTeamRows (piso : String) (pm : Dict) (hard : ℤ) (allocD : Dict) (d : Day) : List Row :=
  pm.filterMap (fun p =>
    let asig := dget allocD p.1
    if asig ≤ 0 then none
    else
      some ⟨piso, p.1, d, some p.2, asig,
        some (if 0 < hard then pythonRound2 (intQ asig / intQ hard * 100) else 0), none⟩)

theorem dayRowsFold_fst (piso : String) (hard : ℤ) (allocD : Dict) (d : Day) (pm : Dict) :
    ∀ acc : List Row × Dict,
      (pm.foldl (dayRowsFold piso hard allocD d) acc).1 =
        acc.1 ++ dayTeamRows piso pm hard allocD d := by
  induction pm with
  | nil => intro acc; simp [dayTeamRows]
  | cons p pm ih =>
    intro acc
    rw [List.foldl_cons]
    by_cases ha : dget allocD p.1 ≤ 0
    · rw [show dayRowsFold piso hard allocD d acc p =
          (acc.1, dset acc.2 p.1 (dget acc.2 p.1 + dget allocD p.1)) by
          simp [dayRowsFold, ha]]
      rw [ih _]
      simp [dayTeamRows, List.filterMap_cons, ha]
    · rw [show dayRowsFold piso hard allocD d acc p =
          (acc.1 ++ [⟨piso, p.1, d, some p.2, dget allocD p.1,
            some (if 0 < hard then pythonRound2 (intQ (dget allocD p.1) / intQ hard * 100) else 0),
            none⟩],
           dset acc.2 p.1 (dget acc.2 p.1 + dget allocD p.1)) by
          simp [dayRowsFold, ha]]
      rw [ih _]
      simp [dayTeamRows, List.filterMap_cons, ha]

theorem dayRowsFold_snd (piso : String) (hard : ℤ) (allocD : Dict) (d : Day) (pm : Dict) :
    ∀ acc : List Row × Dict,
      (pm.foldl (dayRowsFold piso hard allocD d) acc).2 =
        pm.foldl (fun wa p => dset wa p.1 (dget wa p.1 + dget allocD p.1)) acc.2 := by
  induction pm with
  | nil => intro acc; rfl
  | cons p pm ih =>
    intro acc
    rw [List.foldl_cons, List.foldl_cons]
    by_cases ha : dget allocD p.1 ≤ 0
    · rw [show dayRowsFold piso hard allocD d acc p =
          (acc.1, dset acc.2 p.1 (dget acc.2 p.1 + dget allocD p.1)) by
          simp [dayRowsFold, ha]]
      exact ih _
    · rw [show dayRowsFold piso hard allocD d acc p =
          (acc.1 ++ [⟨piso, p.1, d, some p.2, dget allocD p.1,
            some (if 0 < hard then pythonRound2 (intQ (dget allocD p.1) / intQ hard * 100) else 0),
            none⟩],
           dset acc.2 p.1 (dget acc.2 p.1 + dget allocD p.1)) by
          simp [dayRowsFold, ha]]
      exact ih _

theorem floorDayStep_rows (piso : String) (pm : Dict) (hard libres : ℤ) (alloc : WeekAlloc)
    (st : List Row × ℚ × ℕ × Dict) (d : Day) :
    (floorDayStep piso pm hard libres alloc st d).1 =
      st.1 ++ dayTeamRows piso pm hard (alloc.get d) d ++
        [⟨piso, "Cupos libres", d, none, libres, none, none⟩] := by
  show (pm.foldl (dayRowsFold piso hard (alloc.get d) d) (st.1, st.2.2.2)).1 ++ _ = _
  rw [dayRowsFold_fst, List.append_assoc]

theorem mem_dayTeamRows_dia (piso : String) (pm : Dict) (hard : ℤ) (allocD : Dict) (d : Day)
    (r : Row) (hr : r ∈ dayTeamRows piso pm hard allocD d) : r.dia = d ∧ r.piso = piso := by
  obtain ⟨p, _, hp⟩ := List.mem_filterMap.1 hr
  by_cases ha : dget allocD p.1 ≤ 0
  · simp [ha] at hp
  · simp only [ha, if_false, ite_false, Option.some.injEq] at hp
    rw [← hp]
    exact ⟨rfl, rfl⟩

theorem mem_dayTeamRows_cupos (piso : String) (pm : Dict) (hard : ℤ) (allocD : Dict) (d : Day)
    (r : Row) (hr : r ∈ dayTeamRows piso pm hard allocD d) :
    ∃ p ∈ pm, r.equipo = p.1 ∧ r.cupos = dget allocD p.1 ∧ 0 < r.cupos := by
  obtain ⟨p, hpm, hp⟩ := List.mem_filterMap.1 hr
  by_cases ha : dget allocD p.1 ≤ 0
  · simp [ha] at hp
  · simp only [ha, if_false, ite_false, Option.some.injEq] at hp
    exact ⟨p, hpm, by rw [← hp], by rw [← hp], by rw [← hp]; exact lt_of_not_le ha⟩

theorem dayTeamRows_cupos_sum (piso : String) (pm : Dict) (hard : ℤ) (allocD : Dict) (d : Day) :
    ((dayTeamRows piso pm hard allocD d).map (·.cupos)).sum =
      ((dkeys pm).map (fun k => if dget allocD k ≤ 0 then 0 else dget allocD k)).sum := by
  induction pm with
  | nil => simp [dayTeamRows, dkeys_nil]
  | cons p pm ih =>
    rw [dkeys_cons, List.map_cons, List.sum_cons]
    by_cases ha : dget allocD p.1 ≤ 0
    · simp only [dayTeamRows, List.filterMap_cons] at ih ⊢
      simp [ha, ih]
    · simp only [dayTeamRows, List.filterMap_cons] at ih ⊢
      simp [ha, ih]

/-- When the day dict is nonnegative with exactly the team map's keys, the
emitted team rows sum to the full day total. -/
theorem dayTeamRows_sum_eq_dsum (piso : String) (pm : Dict) (hard : ℤ) (allocD : Dict)
    (d : Day) (hkeys : dkeys allocD = dkeys pm) (hnd : (dkeys allocD).Nodup)
    (hnn : ∀ p ∈ allocD, 0 ≤ p.2) :
    ((dayTeamRows piso pm hard allocD d).map (·.cupos)).sum = dsum allocD := by
  rw [dayTeamRows_cupos_sum, ← hkeys, dsum_eq_sum_dget allocD hnd]
  refine congrArg List.sum (List.map_congr_left ?_)
  intro k _
  by_cases h : dget allocD k ≤ 0
  · have := dget_nonneg allocD hnn k
    simp [h, le_antisymm h this]
  · simp [h]

theorem floorFinish_rowsRaw (pre : FloorPre) (alloc : WeekAlloc) (rng : Rng) :
    (floorFinish pre alloc rng).rowsRaw =
      dayTeamRows pre.piso (perMapOf pre.teams) pre.hard (alloc.get .lunes) .lunes ++
      [⟨pre.piso, "Cupos libres", .lunes, none, pre.libres, none, none⟩] ++
      dayTeamRows pre.piso (perMapOf pre.teams) pre.hard (alloc.get .martes) .martes ++
      [⟨pre.piso, "Cupos libres", .martes, none, pre.libres, none, none⟩] ++
      dayTeamRows pre.piso (perMapOf pre.teams) pre.hard (alloc.get .miercoles) .miercoles ++
      [⟨pre.piso, "Cupos libres", .miercoles, none, pre.libres, none, none⟩] ++
      dayTeamRows pre.piso (perMapOf pre.teams) pre.hard (alloc.get .jueves) .jueves ++
      [⟨pre.piso, "Cupos libres", .jueves, none, pre.libres, none, none⟩] ++
      dayTeamRows pre.piso (perMapOf pre.teams) pre.hard (alloc.get .viernes) .viernes ++
      [⟨pre.piso, "Cupos libres", .viernes, none, pre.libres, none, none⟩] := by
  show (diasSemana.foldl
    (floorDayStep pre.piso (perMapOf pre.teams) pre.hard pre.libres alloc)
    ([], 0, 0, (perMapOf pre.teams).map (fun p => (p.1, 0)))).1 = _
  simp only [diasSemana, List.foldl_cons, List.foldl_nil]
  rw [floorDayStep_rows, floorDayStep_rows, floorDayStep_rows, floorDayStep_rows,
    floorDayStep_rows]
  simp [List.append_assoc]

theorem floorCoreOfNoFill_as_finish (pre : FloorPre) :
    floorCoreOfNoFill pre = floorFinish pre pre.alloc pre.rng := rfl

/-- The cupos total of the team rows of one day (the reserved-pool row
excluded). -/
def teamCuposSum (rows : List Row) (d : Day) : ℤ :=
  ((rows.filter (fun r => decide (r.dia = d) && !(r.equipo == "Cupos libres"))).map
    (·.cupos)).sum

theorem teamCuposSum_append (a b : List Row) (d : Day) :
    teamCuposSum (a ++ b) d = teamCuposSum a d + teamCuposSum b d := by
  simp [teamCuposSum, List.filter_append]

theorem teamCuposSum_dayTeamRows_other (piso : String) (pm : Dict) (hard : ℤ)
    (allocD : Dict) (d d' : Day) (h : d' ≠ d) :
    teamCuposSum (dayTeamRows piso pm hard allocD d') d = 0 := by
  unfold teamCuposSum
  rw [List.filter_eq_nil_iff.2 ?hnil]
  · rfl
  case hnil =>
    intro r hr
    have := (mem_dayTeamRows_dia piso pm hard allocD d' r hr).1
    simp [this, h]

theorem teamCuposSum_libresRow (piso : String) (libres : ℤ) (d d' : Day) :
    teamCuposSum [(⟨piso, "Cupos libres", d', none, libres, none, none⟩ : Row)] d = 0 := by
  simp [teamCuposSum, List.filter]

theorem teamCuposSum_dayTeamRows_same (piso : String) (pm : Dict) (hard : ℤ)
    (allocD : Dict) (d : Day) :
    teamCuposSum (dayTeamRows piso pm hard allocD d) d ≤
      ((dayTeamRows piso pm hard allocD d).map (·.cupos)).sum := by
  unfold teamCuposSum
  refine List.Sublist.sum_le_sum (List.Sublist.map _ (List.filter_sublist _)) ?_
  intro a ha
  obtain ⟨r, hr, rfl⟩ := List.mem_map.1 ha
  exact le_of_lt (mem_dayTeamRows_cupos piso pm hard allocD d r hr).choose_spec.2.2.2

theorem teamCuposSum_finish (pre : FloorPre) (alloc : WeekAlloc) (rng : Rng) (d : Day) :
    teamCuposSum (floorFinish pre alloc rng).rowsRaw d =
      teamCuposSum (dayTeamRows pre.piso (perMapOf pre.teams) pre.hard (alloc.get d) d) d := by
  rw [floorFinish_rowsRaw]
  simp only [teamCuposSum_append, teamCuposSum_libresRow, add_zero]
  cases d with
  | lunes =>
      rw [teamCuposSum_dayTeamRows_other pre.piso (perMapOf pre.teams) pre.hard
          (alloc.get .martes) .lunes .martes (by decide),
        teamCuposSum_dayTeamRows_other pre.piso (perMapOf pre.teams) pre.hard
          (alloc.get .miercoles) .lunes .miercoles (by decide),
        teamCuposSum_dayTeamRows_other pre.piso (perMapOf pre.teams) pre.hard
          (alloc.get .jueves) .lunes .jueves (by decide),
        teamCuposSum_dayTeamRows_other pre.piso (perMapOf pre.teams) pre.hard
          (alloc.get .viernes) .lunes .viernes (by decide)]
      ring
  | martes =>
      rw [teamCuposSum_dayTeamRows_other pre.piso (perMapOf pre.teams) pre.hard
          (alloc.get .lunes) .martes .lunes (by decide),
        teamCuposSum_dayTeamRows_other pre.piso (perMapOf pre.teams) pre.hard
          (alloc.get .miercoles) .martes .miercoles (by decide),
        teamCuposSum_dayTeamRows_other pre.piso (perMapOf pre.teams) pre.hard
          (alloc.get .jueves) .martes .jueves (by decide),
        teamCuposSum_dayTeamRows_other pre.piso (perMapOf pre.teams) pre.hard
          (alloc.get .viernes) .martes .viernes (by decide)]
      ring
  | miercoles =>
      rw [teamCuposSum_dayTeamRows_other pre.piso (perMapOf pre.teams) pre.hard
          (alloc.get .lunes) .miercoles .lunes (by decide),
        teamCuposSum_dayTeamRows_other pre.piso (perMapOf pre.teams) pre.hard
          (alloc.get .martes) .miercoles .martes (by decide),
        teamCuposSum_dayTeamRows_other pre.piso (perMapOf pre.teams) pre.hard
          (alloc.get .jueves) .miercoles .jueves (by decide),
        teamCuposSum_dayTeamRows_other pre.piso (perMapOf pre.teams) pre.hard
          (alloc.get .viernes) .miercoles .viernes (by decide)]
      ring
  | jueves =>
      rw [teamCuposSum_dayTeamRows_other pre.piso (perMapOf pre.teams) pre.hard
          (alloc.get .lunes) .jueves .lunes (by decide),
        teamCuposSum_dayTeamRows_other pre.piso (perMapOf pre.teams) pre.hard
          (alloc.get .martes) .jueves .martes (by decide),
        teamCuposSum_dayTeamRows_other pre.piso (perMapOf pre.teams) pre.hard
          (alloc.get .miercoles) .jueves .miercoles (by decide),
        teamCuposSum_dayTeamRows_other pre.piso (perMapOf pre.teams) pre.hard
          (alloc.get .viernes) .jueves .viernes (by decide)]
      ring
  | viernes =>
      rw [teamCuposSum_dayTeamRows_other pre.piso (perMapOf pre.teams) pre.hard
          (alloc.get .lunes) .viernes .lunes (by decide),
        teamCuposSum_dayTeamRows_other pre.piso (perMapOf pre.teams) pre.hard
          (alloc.get .martes) .viernes .martes (by decide),
        teamCuposSum_dayTeamRows_other pre.piso (perMapOf pre.teams) pre.hard
          (alloc.get .miercoles) .viernes .miercoles (by decide),
        teamCuposSum_dayTeamRows_other pre.piso (perMapOf pre.teams) pre.hard
          (alloc.get .jueves) .viernes .jueves (by decide)]
      ring

theorem floorFinish_libres (pre : FloorPre) (alloc : WeekAlloc) (rng : Rng) :
    (floorFinish pre alloc rng).libres = pre.libres := rfl

theorem floorFinish_capTotal (pre : FloorPre) (alloc : WeekAlloc) (rng : Rng) :
    (floorFinish pre alloc rng).capTotal = pre.capTotal := rfl

theorem floorFinish_piso (pre : FloorPre) (alloc : WeekAlloc) (rng : Rng) :
    (floorFinish pre alloc rng).piso = pre.piso := rfl

theorem floorFinish_alloc (pre : FloorPre) (alloc : WeekAlloc) (rng : Rng) :
    (floorFinish pre alloc rng).alloc = alloc := rfl

theorem floorFinish_deficits (pre : FloorPre) (alloc : WeekAlloc) (rng : Rng) :
    (floorFinish pre alloc rng).deficits = pre.deficits := rfl

theorem mem_finish_rowsRaw (pre : FloorPre) (alloc : WeekAlloc) (rng : Rng) (r : Row)
    (hr : r ∈ (floorFinish pre alloc rng).rowsRaw) :
    (∃ d, r ∈ dayTeamRows pre.piso (perMapOf pre.teams) pre.hard (alloc.get d) d) ∨
    (∃ d, r = ⟨pre.piso, "Cupos libres", d, none, pre.libres, none, none⟩) := by
  rw [floorFinish_rowsRaw] at hr
  simp only [List.mem_append, List.mem_singleton] at hr
  rcases hr with ((((((((h | h) | h) | h) | h) | h) | h) | h) | h) | h
  · exact Or.inl ⟨.lunes, h⟩
  · exact Or.inr ⟨.lunes, h⟩
  · exact Or.inl ⟨.martes, h⟩
  · exact Or.inr ⟨.martes, h⟩
  · exact Or.inl ⟨.miercoles, h⟩
  · exact Or.inr ⟨.miercoles, h⟩
  · exact Or.inl ⟨.jueves, h⟩
  · exact Or.inr ⟨.jueves, h⟩
  · exact Or.inl ⟨.viernes, h⟩
  · exact Or.inr ⟨.viernes, h⟩

/-- The per-day allocation of a floor pass is nonnegative, carries the team
map's keys, and sums to at most the hard limit. -/
theorem steps_alloc_facts (reglas : List (String × Rule)) (ign : Bool) (mode : String)
    (pisoStr : String) (capTotal reserva : ℤ) (teams : List TeamInfo) (rng : Rng)
    (hper : ∀ t ∈ teams, 0 ≤ t.per) (d : Day) :
    dkeys (((processFloorSteps reglas ign mode pisoStr capTotal reserva teams rng).alloc).get d) =
      dkeys (perMapOf teams) ∧
    (∀ p ∈ ((processFloorSteps reglas ign mode pisoStr capTotal reserva teams rng).alloc).get d,
      0 ≤ p.2) ∧
    dsum (((processFloorSteps reglas ign mode pisoStr capTotal reserva teams rng).alloc).get d) ≤
      max 0 (capTotal - reserva) := by
  obtain ⟨hkeys, _, hnn⟩ :=
    steps_fd_inv reglas ign mode pisoStr (max 0 (capTotal - reserva)) teams rng hper d
  have hnd : (dkeys ((fullDaySection reglas ign mode pisoStr (max 0 (capTotal - reserva)) teams
      (buildDayAlloc (weeklyTargetOf teams) WeekAlloc.empty rng).1
      (buildDayAlloc (weeklyTargetOf teams) WeekAlloc.empty rng).2).1.get d)).Nodup :=
    hkeys ▸ perMapOf_keys_nodup teams
  rw [steps_alloc_get]
  exact ⟨by rw [capDayTrim_keys]; exact hkeys,
    capDayTrim_nonneg _ _ hnn,
    capDayTrim_sum_le _ _ hnd hnn (le_max_left _ _)⟩

/-- **C1**: capacity invariant.  On every floor pass and every weekday, the
`cupos` of the emitted team rows plus the emitted `Cupos libres` row total at
most the floor's total capacity (`cap_total_real`, the explicit capacity row
or the inferred headcount sum plus the reserve).  The `% uso semanal`
back-fill performed when floors are assembled edits only that percentage
field, so these are the row values the caller receives. -/
theorem claim_C1_capacity_invariant (reglas : List (String × Rule)) (ign : Bool)
    (mode : String) (pisoStr : String) (capTotal reserva : ℤ) (teams : List TeamInfo)
    (rng : Rng) (hper : ∀ t ∈ teams, 0 ≤ t.per) (d : Day) :
    teamCuposSum
        (floorCoreOf (processFloorSteps reglas ign mode pisoStr capTotal reserva teams rng)).rowsRaw
        d +
      (floorCoreOf (processFloorSteps reglas ign mode pisoStr capTotal reserva teams rng)).libres ≤
      (floorCoreOf (processFloorSteps reglas ign mode pisoStr capTotal reserva teams rng)).capTotal := by
  rw [floorCoreOf_eq_noFill reglas ign mode pisoStr capTotal reserva teams rng hper,
    floorCoreOfNoFill_as_finish]
  set pre := processFloorSteps reglas ign mode pisoStr capTotal reserva teams rng with hpre
  obtain ⟨hkeys, hnn, hsum⟩ :=
    steps_alloc_facts reglas ign mode pisoStr capTotal reserva teams rng hper d
  have hnd : (dkeys (pre.alloc.get d)).Nodup := by
    rw [← hpre] at hkeys
    rw [hkeys]
    exact perMapOf_keys_nodup teams
  rw [← hpre] at hkeys hnn hsum
  have hteams : pre.teams = teams := rfl
  have hsum_rows : teamCuposSum (floorFinish pre pre.alloc pre.rng).rowsRaw d ≤
      dsum (pre.alloc.get d) := by
    rw [teamCuposSum_finish]
    have hle := teamCuposSum_dayTeamRows_same pre.piso (perMapOf pre.teams) pre.hard
      (pre.alloc.get d) d
    have heq := dayTeamRows_sum_eq_dsum pre.piso (perMapOf pre.teams) pre.hard
      (pre.alloc.get d) d (by rw [hteams]; exact hkeys) hnd hnn
    exact le_trans hle (le_of_eq heq)
  rw [floorFinish_libres, floorFinish_capTotal]
  have hlib : pre.libres = (if reserva ≤ capTotal then reserva else capTotal) := rfl
  have hcap : pre.capTotal = capTotal := rfl
  have hhard : pre.hard = max 0 (capTotal - reserva) := rfl
  rw [hlib, hcap]
  by_cases hrc : reserva ≤ capTotal
  · rw [if_pos hrc]
    have : max 0 (capTotal - reserva) = capTotal - reserva := max_eq_right (by linarith)
    rw [this] at hsum
    linarith [le_trans hsum_rows hsum]
  · rw [if_neg hrc]
    have : max 0 (capTotal - reserva) = 0 := max_eq_left (by linarith [not_le.1 hrc])
    rw [this] at hsum
    linarith [le_trans hsum_rows hsum]

/-- A small concrete roster used to instantiate the universally quantified
claims. -/
def teamsW : List TeamInfo := [⟨"A", 3, 1⟩, ⟨"B", 2, 0⟩]

theorem claim_C1_capacity_invariant_witness :
    (∀ t ∈ teamsW, 0 ≤ t.per) ∧
    teamCuposSum
        (floorCoreOf (processFloorSteps [] false "equitativo" "1" 10 2 teamsW
          (Rng.ofSeed (some 7)))).rowsRaw Day.lunes +
      (floorCoreOf (processFloorSteps [] false "equitativo" "1" 10 2 teamsW
        (Rng.ofSeed (some 7)))).libres ≤
      (floorCoreOf (processFloorSteps [] false "equitativo" "1" 10 2 teamsW
        (Rng.ofSeed (some 7)))).capTotal :=
  ⟨by decide,
    claim_C1_capacity_invariant [] false "equitativo" "1" 10 2 teamsW (Rng.ofSeed (some 7))
      (by decide) Day.lunes⟩

theorem mem_libres_row_finish (pre : FloorPre) (alloc : WeekAlloc) (rng : Rng) (d : Day) :
    (⟨pre.piso, "Cupos libres", d, none, pre.libres, none, none⟩ : Row) ∈
      (floorFinish pre alloc rng).rowsRaw := by
  rw [floorFinish_rowsRaw]
  cases d <;> simp [List.mem_append]

/-- **C6**: no over-allocation beyond headcount.  On every floor pass (distinct
team names, nonnegative headcounts as `mkEquiposInfo` guarantees), every team's
per-day allocation is at most its headcount `per`, and every emitted team row
(any row carrying the team's name other than the reserved-pool row) shows at
most `per` seats. -/
theorem claim_C6_no_overallocation (reglas : List (String × Rule)) (ign : Bool) (mode : String)
    (pisoStr : String) (capTotal reserva : ℤ) (teams : List TeamInfo) (rng : Rng)
    (hnd : (teams.map (·.eq)).Nodup) (hper : ∀ t ∈ teams, 0 ≤ t.per)
    (t : TeamInfo) (ht : t ∈ teams) (d : Day) :
    dget
        (((floorCoreOf (processFloorSteps reglas ign mode pisoStr capTotal reserva teams
          rng)).alloc).get d) t.eq ≤ t.per ∧
    ∀ r ∈ (floorCoreOf (processFloorSteps reglas ign mode pisoStr capTotal reserva teams
        rng)).rowsRaw,
      r.equipo = t.eq → r.equipo ≠ "Cupos libres" → r.cupos ≤ t.per := by
  rw [floorCoreOf_eq_noFill reglas ign mode pisoStr capTotal reserva teams rng hper,
    floorCoreOfNoFill_as_finish]
  set pre := processFloorSteps reglas ign mode pisoStr capTotal reserva teams rng with hpre
  have halloc : ∀ d', pre.alloc.get d' =
      (capDayTrim (max 0 (capTotal - reserva)) (perMapOf teams)).1 := by
    intro d'
    rw [hpre]
    exact steps_alloc_get_nodup reglas ign mode pisoStr capTotal reserva teams rng hnd hper d'
  constructor
  · rw [floorFinish_alloc, halloc d]
    exact le_trans (capDayTrim_le _ _ (perMapOf_keys_nodup teams) t.eq)
      (le_of_eq (dget_perMapOf teams hnd t ht))
  · intro r hr hre hrl
    rcases mem_finish_rowsRaw pre pre.alloc pre.rng r hr with ⟨d', hmem⟩ | ⟨d', heq⟩
    · obtain ⟨p, hpm, hpe, hpc, _⟩ := mem_dayTeamRows_cupos pre.piso (perMapOf pre.teams)
        pre.hard (pre.alloc.get d') d' r hmem
      have hp1 : p.1 = t.eq := by rw [← hpe]; exact hre
      rw [hpc, halloc d', hp1]
      exact le_trans (capDayTrim_le _ _ (perMapOf_keys_nodup teams) t.eq)
        (le_of_eq (dget_perMapOf teams hnd t ht))
    · exact absurd (by rw [heq]) hrl

theorem claim_C6_no_overallocation_witness :
    ((teamsW.map (·.eq)).Nodup ∧ (∀ t ∈ teamsW, 0 ≤ t.per) ∧
      (⟨"A", 3, 1⟩ : TeamInfo) ∈ teamsW) ∧
    (dget
        (((floorCoreOf (processFloorSteps [] false "equitativo" "1" 10 2 teamsW
          (Rng.ofSeed (some 7)))).alloc).get Day.martes) "A" ≤ 3 ∧
     ∀ r ∈ (floorCoreOf (processFloorSteps [] false "equitativo" "1" 10 2 teamsW
        (Rng.ofSeed (some 7)))).rowsRaw,
       r.equipo = "A" → r.equipo ≠ "Cupos libres" → r.cupos ≤ 3) :=
  ⟨⟨by decide, by decide, by decide⟩,
    claim_C6_no_overallocation [] false "equitativo" "1" 10 2 teamsW (Rng.ofSeed (some 7))
      (by decide) (by decide) ⟨"A", 3, 1⟩ (by decide) Day.martes⟩

/-- A concrete input whose only floor has an explicit capacity (1) below the
configured reserve (2). -/
def inpC7 : EngineInput :=
  ⟨["Piso", "Equipo", "Personas", "Minimo"],
   [⟨some "1", "A", .num 3, .num 1⟩],
   [], [⟨some "1", .num 1⟩], some 2, false, some 0, "equitativo"⟩

/-- **C7 counterexample**: on `inpC7` the configured reserve is 2 but the
emitted reserved pool (`libres`, the `cupos` of every `Cupos libres` row of the
floor) is 1, because `compute_distribution_from_excel` sets
`libres = cap_total_real` whenever `cap_total_real < RESERVA_OBLIGATORIA`; the
spec's "never less than the configured constant" is false. -/
theorem claim_C7_counterexample :
    reservaOf inpC7 = 2 ∧ ((floorCores inpC7).headI).libres = 1 ∧
    ¬ (reservaOf inpC7 ≤ ((floorCores inpC7).headI).libres) := by
  refine ⟨?_, ?_, ?_⟩ <;> with_unfolding_all decide

/-- **C7** (amended): on every floor pass, the reserved pool actually emitted
is `min(total capacity, configured reserve)`: it equals the configured reserve
exactly when the reserve fits in the floor's capacity, and a `Cupos libres` row
carrying it is emitted for every weekday. -/
theorem claim_C7_amended_reserved_pool (reglas : List (String × Rule)) (ign : Bool)
    (mode : String) (pisoStr : String) (capTotal reserva : ℤ) (teams : List TeamInfo)
    (rng : Rng) (d : Day) :
    (floorCoreOf (processFloorSteps reglas ign mode pisoStr capTotal reserva teams
        rng)).libres =
      min (floorCoreOf (processFloorSteps reglas ign mode pisoStr capTotal reserva teams
        rng)).capTotal reserva ∧
    (reserva ≤ capTotal →
      (floorCoreOf (processFloorSteps reglas ign mode pisoStr capTotal reserva teams
        rng)).libres = reserva) ∧
    (⟨(floorCoreOf (processFloorSteps reglas ign mode pisoStr capTotal reserva teams
        rng)).piso, "Cupos libres", d, none,
      (floorCoreOf (processFloorSteps reglas ign mode pisoStr capTotal reserva teams
        rng)).libres, none, none⟩ : Row) ∈
      (floorCoreOf (processFloorSteps reglas ign mode pisoStr capTotal reserva teams
        rng)).rowsRaw := by
  set pre := processFloorSteps reglas ign mode pisoStr capTotal reserva teams rng with hpre
  have hlib : (floorCoreOf pre).libres = (if reserva ≤ capTotal then reserva else capTotal) :=
    rfl
  have hcap : (floorCoreOf pre).capTotal = capTotal := rfl
  refine ⟨?_, ?_, ?_⟩
  · rw [hlib, hcap]
    by_cases h : reserva ≤ capTotal
    · rw [if_pos h, min_eq_right h]
    · rw [if_neg h, min_eq_left (le_of_lt (not_le.1 h))]
  · intro h
    rw [hlib, if_pos h]
  · exact mem_libres_row_finish pre _ _ d

theorem claim_C7_amended_reserved_pool_witness :
    (2 : ℤ) ≤ 10 ∧
    (floorCoreOf (processFloorSteps [] false "equitativo" "1" 10 2 teamsW
      (Rng.ofSeed (some 7)))).libres = 2 :=
  ⟨by decide,
    (claim_C7_amended_reserved_pool [] false "equitativo" "1" 10 2 teamsW
      (Rng.ofSeed (some 7)) Day.lunes).2.1 (by decide)⟩

/-- A roster missing the minimum column. -/
def inpC9 : EngineInput :=
  ⟨["Piso", "Equipo", "Personas"],
   [⟨some "1", "A", .num 3, .num 1⟩],
   [], [], none, false, none, "equitativo"⟩

/-- **C9 counterexample**: on a roster lacking the minimum column the engine
does not fail fast with a `ConfigurationError` (the source has no raise on
this path); it returns a normal quadruple built from no data — empty rows and
deficits, with the message buried in the score details. -/
theorem claim_C9_counterexample :
    (compute (Rng.ofSeed none) inpC9).rows = [] ∧
    (compute (Rng.ofSeed none) inpC9).deficits = [] ∧
    (compute (Rng.ofSeed none) inpC9).score.details =
      .errorDetails "Faltan columnas clave" := by
  refine ⟨?_, ?_, ?_⟩ <;> with_unfolding_all decide

/-- **C9** (amended): on every roster that is nonempty but lacks a required
column, `compute_distribution_from_excel` returns — it never raises — the
sentinel quadruple: empty rows, empty deficits, the base audit, and a score of
`1e18` whose details carry the error string `"Faltan columnas clave"`. -/
theorem claim_C9_amended_missing_columns (g : Rng) (inp : EngineInput)
    (hrows : inp.equiposRows.isEmpty = false) (hcols : colsOk inp.equiposCols = false) :
    compute g inp =
      ⟨[], [], baseAudit inp, ⟨intQ (10 ^ 18), .errorDetails "Faltan columnas clave"⟩⟩ := by
  simp [compute, hrows, hcols]

theorem claim_C9_amended_missing_columns_witness :
    (inpC9.equiposRows.isEmpty = false ∧ colsOk inpC9.equiposCols = false) ∧
    compute (Rng.ofSeed none) inpC9 =
      ⟨[], [], baseAudit inpC9, ⟨intQ (10 ^ 18), .errorDetails "Faltan columnas clave"⟩⟩ :=
  ⟨⟨rfl, by with_unfolding_all decide⟩,
    claim_C9_amended_missing_columns (Rng.ofSeed none) inpC9 rfl
      (by with_unfolding_all decide)⟩

theorem auditEntries_not_infeasible (a : Audit) (e : AuditEntry)
    (he : e ∈ auditEntries a) : e.isInfeasibleDay = false := by
  unfold auditEntries at he
  rcases List.mem_append.1 he with h | h <;>
    · obtain ⟨x, _, rfl⟩ := List.mem_map.1 h
      rfl

/-- A floor whose capacity (4, of which 2 are reserved) cannot cover the two
teams' minimums (3 each). -/
def inpC8 : EngineInput :=
  ⟨["Piso", "Equipo", "Personas", "Minimo"],
   [⟨some "1", "A", .num 3, .num 3⟩, ⟨some "1", "B", .num 3, .num 3⟩],
   [], [⟨some "1", .num 4⟩], some 2, false, none, "equitativo"⟩

/-- **C8 counterexample**: on `inpC8` the minimums cannot be covered (the
first deficit record shows `asignado < minimo` and the deficit report is
nonempty), yet the returned audit trail contains no `infeasible_day` entry at
all — the engine never constructs one. -/
theorem claim_C8_counterexample :
    (compute (Rng.ofSeed none) inpC8).deficits ≠ [] ∧
    ((compute (Rng.ofSeed none) inpC8).deficits.headI).asignado <
      ((compute (Rng.ofSeed none) inpC8).deficits.headI).minimo ∧
    ((auditEntries (compute (Rng.ofSeed none) inpC8).audit).filter
      (·.isInfeasibleDay)) = [] := by
  refine ⟨?_, ?_, ?_⟩ <;> with_unfolding_all decide

/-- **C8** (amended): the engine never records an `infeasible_day` audit
entry.  Whatever the input — including floors whose capacity cannot cover the
minimums — every entry of the returned audit trail is a full-day choice or a
weekly-summary line; capacity shortfalls surface only in the deficit report,
and no exception is raised (`compute` is total). -/
theorem claim_C8_amended_no_infeasible_audit (g : Rng) (inp : EngineInput) :
    ∀ e ∈ auditEntries (compute g inp).audit, e.isInfeasibleDay = false := by
  intro e he
  exact auditEntries_not_infeasible _ e he

theorem headI_mem_of_ne {α : Type} [Inhabited α] (l : List α) (h : l ≠ []) :
    l.headI ∈ l := by
  cases l with
  | nil => exact absurd rfl h
  | cons a t => exact List.mem_cons_self a t

theorem claim_C8_amended_no_infeasible_audit_witness :
    (auditEntries (compute (Rng.ofSeed none) inpC8).audit).headI ∈
      auditEntries (compute (Rng.ofSeed none) inpC8).audit ∧
    ((auditEntries (compute (Rng.ofSeed none) inpC8).audit).headI).isInfeasibleDay = false :=
  ⟨headI_mem_of_ne _ (by with_unfolding_all decide),
    claim_C8_amended_no_infeasible_audit (Rng.ofSeed none) inpC8 _
      (headI_mem_of_ne _ (by with_unfolding_all decide))⟩

/-- A real roster: two headcount-4 teams with raw minimums 4 and 0 on a floor
with an explicit capacity of 8 and a reserve of 2.  `mkEquiposInfo` raises the
second raw minimum to the structural floor of 2 (headcount ≥ 2), so the
effective minimums are 4 and 2. -/
def inpC2 : EngineInput :=
  ⟨["Piso", "Equipo", "Personas", "Minimo"],
   [⟨some "1", "A", .num 4, .num 4⟩, ⟨some "1", "B", .num 4, .num 0⟩],
   [], [⟨some "1", .num 8⟩], some 2, false, none, "equitativo"⟩

/-- **C2 counterexample**: on `inpC2` the effective minimums the engine itself
derives are 4 and 2, and their sum `min(4,4) + min(4,2) = 6` fits the usable
capacity `max 0 (8 - 2) = 6`; yet the daily trim
(`_cap_day_and_collect_deficit`), which repeatedly decrements the currently
largest allocation and never looks at minimums, leaves team `A` with only 3
seats — below `min(headcount, minimum) = 4`.  The spec's "minimum respected
when feasible" is false at this engine-reachable floor state. -/
theorem claim_C2_counterexample :
    mkEquiposInfo inpC2.equiposRows = [⟨"A", 4, 4⟩, ⟨"B", 4, 2⟩] ∧
    ((mkEquiposInfo inpC2.equiposRows).map (fun t => min t.per t.mini)).sum ≤
      max 0 (8 - 2) ∧
    dget (((floorCores inpC2).headI.alloc).get Day.lunes) "A" = 3 ∧
    ¬ (min (4 : ℤ) 4 ≤ dget (((floorCores inpC2).headI.alloc).get Day.lunes) "A") := by
  refine ⟨?_, ?_, ?_, ?_⟩ <;> with_unfolding_all decide

/-- **C2** (amended): the engine guarantees the minimums only when the full
headcounts fit: if `Σ headcount ≤ usable capacity` (so the daily trim is a
no-op), every team's per-day allocation equals its headcount and is therefore
at least `min(headcount, minimum)`. -/
theorem claim_C2_amended_minimums (reglas : List (String × Rule)) (ign : Bool)
    (mode : String) (pisoStr : String) (capTotal reserva : ℤ) (teams : List TeamInfo)
    (rng : Rng) (hnd : (teams.map (·.eq)).Nodup) (hper : ∀ t ∈ teams, 0 ≤ t.per)
    (hsum : dsum (perMapOf teams) ≤ max 0 (capTotal - reserva))
    (t : TeamInfo) (ht : t ∈ teams) (d : Day) :
    dget (((floorCoreOf (processFloorSteps reglas ign mode pisoStr capTotal reserva teams
      rng)).alloc).get d) t.eq = t.per ∧
    min t.per t.mini ≤
      dget (((floorCoreOf (processFloorSteps reglas ign mode pisoStr capTotal reserva teams
        rng)).alloc).get d) t.eq := by
  rw [floorCoreOf_eq_noFill reglas ign mode pisoStr capTotal reserva teams rng hper,
    floorCoreOfNoFill_as_finish, floorFinish_alloc]
  rw [steps_alloc_get_nodup reglas ign mode pisoStr capTotal reserva teams rng hnd hper d,
    capDayTrim_of_le _ _ hsum]
  have h := dget_perMapOf teams hnd t ht
  exact ⟨h, by rw [h]; exact min_le_left _ _⟩

theorem claim_C2_amended_minimums_witness :
    ((teamsW.map (·.eq)).Nodup ∧ (∀ t ∈ teamsW, 0 ≤ t.per) ∧
      dsum (perMapOf teamsW) ≤ max 0 (30 - 2) ∧ (⟨"A", 3, 1⟩ : TeamInfo) ∈ teamsW) ∧
    (dget (((floorCoreOf (processFloorSteps [] false "equitativo" "1" 30 2 teamsW
        (Rng.ofSeed (some 7)))).alloc).get Day.lunes) "A" = 3 ∧
     min (3 : ℤ) 1 ≤ dget (((floorCoreOf (processFloorSteps [] false "equitativo" "1" 30 2
        teamsW (Rng.ofSeed (some 7)))).alloc).get Day.lunes) "A") :=
  ⟨⟨by decide, by decide, by decide, by decide⟩,
    claim_C2_amended_minimums [] false "equitativo" "1" 30 2 teamsW (Rng.ofSeed (some 7))
      (by decide) (by decide) (by decide) ⟨"A", 3, 1⟩ (by decide) Day.lunes⟩

theorem mem_collectDeficitsDay (piso : String) (pm mm : Dict) (ign : Bool) (d : Day)
    (alloc : Dict) (r : DeficitRow) (hr : r ∈ collectDeficitsDay piso pm mm ign d alloc) :
    r.deficit = max 0 (r.dotacion - r.asignado) ∧ 0 < r.deficit := by
  cases ign with
  | true => simp [collectDeficitsDay] at hr
  | false =>
    simp only [collectDeficitsDay, Bool.false_eq_true, if_false] at hr
    obtain ⟨p, hp, heq⟩ := List.mem_filterMap.1 hr
    by_cases h0 : p.2 ≤ 0
    · simp [h0] at heq
    · by_cases hpos : 0 < max 0 (p.2 - dget alloc p.1)
      · simp only [h0, if_false, ite_false, hpos, if_true, ite_true,
          Option.some.injEq] at heq
        subst heq
        exact ⟨rfl, hpos⟩
      · simp [h0, hpos] at heq

theorem mem_steps_deficits (reglas : List (String × Rule)) (ign : Bool) (mode : String)
    (pisoStr : String) (capTotal reserva : ℤ) (teams : List TeamInfo) (rng : Rng)
    (r : DeficitRow)
    (hr : r ∈ (processFloorSteps reglas ign mode pisoStr capTotal reserva teams rng).deficits) :
    r.deficit = max 0 (r.dotacion - r.asignado) ∧ 0 < r.deficit := by
  rw [steps_deficits, capAndDeficits_deficits] at hr
  simp only [List.mem_append] at hr
  rcases hr with (((h | h) | h) | h) | h <;>
    exact mem_collectDeficitsDay _ _ _ _ _ _ _ h

/-- A roster whose raw minimum 0 is raised to the effective minimum 2 by
`mkEquiposInfo`, on a floor where the team is trimmed from 3 to exactly 2. -/
def inpC5 : EngineInput :=
  ⟨["Piso", "Equipo", "Personas", "Minimo"],
   [⟨some "1", "A", .num 3, .num 0⟩],
   [], [⟨some "1", .num 4⟩], some 2, false, none, "equitativo"⟩

/-- **C5 counterexample**: on `inpC5` the engine's first deficit record has
`minimo = 2`, `asignado = 2` and `deficit = 1`: the record exists although
`max(0, minimo − asignado) = 0`, and its deficit value is the headcount
shortfall `dotacion − asignado`, not the claimed minimum shortfall.  The
spec's formula holds only for the pipeline's filtered deficits, not for the
engine's `deficit_report`. -/
theorem claim_C5_counterexample :
    (compute (Rng.ofSeed none) inpC5).deficits ≠ [] ∧
    ((compute (Rng.ofSeed none) inpC5).deficits).headI.minimo = 2 ∧
    ((compute (Rng.ofSeed none) inpC5).deficits).headI.asignado = 2 ∧
    ((compute (Rng.ofSeed none) inpC5).deficits).headI.deficit = 1 ∧
    ¬ (((compute (Rng.ofSeed none) inpC5).deficits).headI.deficit =
        max 0 (((compute (Rng.ofSeed none) inpC5).deficits).headI.minimo -
          ((compute (Rng.ofSeed none) inpC5).deficits).headI.asignado)) := by
  refine ⟨?_, ?_, ?_, ?_, ?_⟩ <;> with_unfolding_all decide

/-- **C5** (amended): every engine deficit record satisfies
`deficit = max(0, dotacion − asignado) > 0` — the *headcount* shortfall —
while the spec's formula `deficit = max(0, minimo − asignado) > 0` holds
exactly for the records returned by the pipeline's `filter_minimum_deficits`,
which also keeps a (relabelled) record for precisely the input records whose
minimum shortfall is positive. -/
theorem claim_C5_amended_deficits (reglas : List (String × Rule)) (ign : Bool)
    (mode : String) (pisoStr : String) (capTotal reserva : ℤ) (teams : List TeamInfo)
    (rng : Rng) :
    (∀ r ∈ (floorCoreOf (processFloorSteps reglas ign mode pisoStr capTotal reserva teams
        rng)).deficits,
      r.deficit = max 0 (r.dotacion - r.asignado) ∧ 0 < r.deficit) ∧
    (∀ (l : List DeficitRow), ∀ r ∈ filterMinimumDeficits l,
      r.deficit = max 0 (r.minimo - r.asignado) ∧ 0 < r.deficit) ∧
    (∀ (l : List DeficitRow), ∀ r ∈ l, 0 < max 0 (r.minimo - r.asignado) →
      ∃ r' ∈ filterMinimumDeficits l, r'.equipo = r.equipo ∧ r'.dia = r.dia ∧
        r'.deficit = max 0 (r.minimo - r.asignado)) := by
  refine ⟨?_, ?_, ?_⟩
  · intro r hr
    have hd : (floorCoreOf (processFloorSteps reglas ign mode pisoStr capTotal reserva teams
        rng)).deficits =
        (processFloorSteps reglas ign mode pisoStr capTotal reserva teams rng).deficits := rfl
    rw [hd] at hr
    exact mem_steps_deficits reglas ign mode pisoStr capTotal reserva teams rng r hr
  · intro l r hr
    obtain ⟨it, hit, heq⟩ := List.mem_filterMap.1 hr
    by_cases hpos : 0 < max 0 (it.minimo - it.asignado)
    · simp only [hpos, if_true, ite_true, Option.some.injEq] at heq
      subst heq
      exact ⟨rfl, hpos⟩
    · simp [filterMinimumDeficits, hpos] at heq
  · intro l r hr hpos
    refine ⟨{ r with
              deficit := max 0 (r.minimo - r.asignado)
              causa := some ("Faltan " ++ toString (max 0 (r.minimo - r.asignado)) ++
                " puestos (capacidad insuficiente)") }, ?_, rfl, rfl, rfl⟩
    exact List.mem_filterMap.2 ⟨r, hr, by simp [hpos]⟩

theorem claim_C5_amended_deficits_witness :
    ((floorCoreOf (processFloorSteps [] false "equitativo" "1" 4 2 [⟨"A", 3, 2⟩]
        (Rng.ofSeed none))).deficits).headI ∈
      (floorCoreOf (processFloorSteps [] false "equitativo" "1" 4 2 [⟨"A", 3, 2⟩]
        (Rng.ofSeed none))).deficits ∧
    (((floorCoreOf (processFloorSteps [] false "equitativo" "1" 4 2 [⟨"A", 3, 2⟩]
        (Rng.ofSeed none))).deficits).headI.deficit =
      max 0 (((floorCoreOf (processFloorSteps [] false "equitativo" "1" 4 2 [⟨"A", 3, 2⟩]
        (Rng.ofSeed none))).deficits).headI.dotacion -
        ((floorCoreOf (processFloorSteps [] false "equitativo" "1" 4 2 [⟨"A", 3, 2⟩]
          (Rng.ofSeed none))).deficits).headI.asignado) ∧
      0 < ((floorCoreOf (processFloorSteps [] false "equitativo" "1" 4 2 [⟨"A", 3, 2⟩]
        (Rng.ofSeed none))).deficits).headI.deficit) :=
  ⟨headI_mem_of_ne _ (by with_unfolding_all decide),
    (claim_C5_amended_deficits [] false "equitativo" "1" 4 2 [⟨"A", 3, 2⟩]
      (Rng.ofSeed none)).1 _ (headI_mem_of_ne _ (by with_unfolding_all decide))⟩

/-- One day's contribution to `weekly_assigned`: for every team of the per
map, add the day's assignment into the running dict. -/
def weekAdd (pm allocD w : Dict) : Dict :=
  pm.foldl (fun wa p => dset wa p.1 (dget wa p.1 + dget allocD p.1)) w

theorem floorDayStep_week (piso : String) (pm : Dict) (hard libres : ℤ)
    (alloc : WeekAlloc) (st : List Row × ℚ × ℕ × Dict) (d : Day) :
    (floorDayStep piso pm hard libres alloc st d).2.2.2 =
      weekAdd pm (alloc.get d) st.2.2.2 := by
  show (pm.foldl (dayRowsFold piso hard (alloc.get d) d) (st.1, st.2.2.2)).2 = _
  rw [dayRowsFold_snd]
  rfl

theorem week_fold (piso : String) (pm : Dict) (hard libres : ℤ) (alloc : WeekAlloc)
    (init : List Row × ℚ × ℕ × Dict) :
    (diasSemana.foldl (floorDayStep piso pm hard libres alloc) init).2.2.2 =
      weekAdd pm (alloc.get .viernes) (weekAdd pm (alloc.get .jueves)
        (weekAdd pm (alloc.get .miercoles) (weekAdd pm (alloc.get .martes)
          (weekAdd pm (alloc.get .lunes) init.2.2.2)))) := by
  simp only [diasSemana, List.foldl_cons, List.foldl_nil, floorDayStep_week]

theorem dget_weekAdd_ne (pm allocD : Dict) (k : String) (h : ∀ p ∈ pm, p.1 ≠ k) :
    ∀ w : Dict, dget (weekAdd pm allocD w) k = dget w k := by
  induction pm with
  | nil => intro w; rfl
  | cons q pm ih =>
    intro w
    show dget (weekAdd pm allocD (dset w q.1 (dget w q.1 + dget allocD q.1))) k = _
    rw [ih (fun p hp => h p (List.mem_cons_of_mem _ hp)),
      dget_dset_ne w q.1 k _ (Ne.symm (h q (List.mem_cons_self _ _)))]

theorem dget_weekAdd (pm allocD : Dict) (hnd : (dkeys pm).Nodup) (p : String × ℤ)
    (hp : p ∈ pm) :
    ∀ w : Dict, dget (weekAdd pm allocD w) p.1 = dget w p.1 + dget allocD p.1 := by
  induction pm with
  | nil => simp at hp
  | cons q pm ih =>
    intro w
    rw [dkeys_cons, List.nodup_cons] at hnd
    show dget (weekAdd pm allocD (dset w q.1 (dget w q.1 + dget allocD q.1))) p.1 = _
    rcases List.mem_cons.1 hp with h | h
    · subst h
      rw [dget_weekAdd_ne pm allocD p.1
          (fun r hr he => hnd.1 (he ▸ mem_dkeys_of_mem pm r hr)),
        dget_dset_self]
    · have hne : p.1 ≠ q.1 := fun he => hnd.1 (he ▸ mem_dkeys_of_mem pm p h)
      rw [ih hnd.2 h, dget_dset_ne w q.1 p.1 _ hne]

theorem dkeys_weekAdd (pm allocD : Dict) :
    ∀ w : Dict, (∀ p ∈ pm, p.1 ∈ dkeys w) → dkeys (weekAdd pm allocD w) = dkeys w := by
  induction pm with
  | nil => intro w _; rfl
  | cons q pm ih =>
    intro w h
    show dkeys (weekAdd pm allocD (dset w q.1 (dget w q.1 + dget allocD q.1))) = _
    rw [ih _ (fun p hp => by
        rw [dkeys_dset_of_mem _ _ _ (h q (List.mem_cons_self _ _))]
        exact h p (List.mem_cons_of_mem _ hp)),
      dkeys_dset_of_mem _ _ _ (h q (List.mem_cons_self _ _))]

theorem dget_map_zero (pm : Dict) (k : String) :
    dget (pm.map (fun p => (p.1, (0 : ℤ)))) k = 0 := by
  induction pm with
  | nil => rfl
  | cons q pm ih =>
    show (if q.1 = k then (0 : ℤ) else dget (pm.map (fun p => (p.1, (0 : ℤ)))) k) = 0
    rw [ih, ite_self]

theorem roundHalfEvenInt_intQ (n : ℤ) : roundHalfEvenInt (intQ n) = n := by
  unfold roundHalfEvenInt
  dsimp only
  have hf : ratFloor (intQ n) = n := by
    rw [ratFloor_eq, intQ_eq, Int.floor_intCast]
  rw [hf, sub_self, if_pos (by norm_num)]

theorem pythonRound2_intQ (n : ℤ) : pythonRound2 (intQ n) = intQ n := by
  unfold pythonRound2
  have h100 : intQ n * 100 = intQ (n * 100) := by
    rw [intQ_eq, intQ_eq]
    push_cast
    ring
  rw [h100, roundHalfEvenInt_intQ, intQ_eq, intQ_eq]
  push_cast
  field_simp

theorem roundHalfUp_intQ (n : ℤ) : roundHalfUp (intQ n) = n := by
  unfold roundHalfUp
  rw [ratFloor_eq, intQ_eq, Int.floor_int_add]
  norm_num

theorem qget_map_of_mem_nodup (f : String × ℤ → ℚ) (m : Dict) (p : String × ℤ)
    (hnd : (dkeys m).Nodup) (hp : p ∈ m) :
    qget (m.map (fun q => (q.1, f q))) p.1 = f p := by
  induction m with
  | nil => simp at hp
  | cons q m ih =>
    rw [dkeys_cons, List.nodup_cons] at hnd
    rcases List.mem_cons.1 hp with h | h
    · subst h
      show (if p.1 = p.1 then f p else _) = f p
      rw [if_pos rfl]
    · have hne : q.1 ≠ p.1 := fun he => hnd.1 (he ▸ mem_dkeys_of_mem m p h)
      show (if q.1 = p.1 then f q else qget (m.map (fun r => (r.1, f r))) p.1) = f p
      rw [if_neg hne, ih hnd.2 h]

/-- The `weekly_assigned` dict after the five day passes of step (5). -/
def weekAssignedOf (pre : FloorPre) (alloc : WeekAlloc) : Dict :=
  (diasSemana.foldl (floorDayStep pre.piso (perMapOf pre.teams) pre.hard pre.libres alloc)
    ([], 0, 0, (perMapOf pre.teams).map (fun p => (p.1, 0)))).2.2.2

theorem floorFinish_summary (pre : FloorPre) (alloc : WeekAlloc) (rng : Rng) :
    (floorFinish pre alloc rng).summary =
      (weekAssignedOf pre alloc).map (fun p =>
        { piso := pre.piso, equipo := p.1, dotacion := dget (perMapOf pre.teams) p.1,
          cuposSemana := p.2, cuposPromedioDiario := pythonRound2 (intQ p.2 / 5),
          usoSemanal := qget ((weekAssignedOf pre alloc).map (fun q =>
            (q.1, if 0 < dget (perMapOf pre.teams) q.1 then
              pythonRound2 (intQ q.2 / (intQ (dget (perMapOf pre.teams) q.1) * 5) * 100)
            else 0))) p.1 }) := rfl

theorem dkeys_weekAdd_eq (pm aD w : Dict) (hw : dkeys w = dkeys pm) :
    dkeys (weekAdd pm aD w) = dkeys pm := by
  rw [dkeys_weekAdd pm aD w (fun p hp => hw.symm ▸ mem_dkeys_of_mem pm p hp), hw]

theorem dkeys_map_zero (pm : Dict) :
    dkeys (pm.map (fun p => (p.1, (0 : ℤ)))) = dkeys pm := by
  simp [dkeys]

theorem dkeys_weekAssignedOf (pre : FloorPre) (alloc : WeekAlloc) :
    dkeys (weekAssignedOf pre alloc) = dkeys (perMapOf pre.teams) := by
  rw [weekAssignedOf, week_fold]
  exact dkeys_weekAdd_eq _ _ _ (dkeys_weekAdd_eq _ _ _ (dkeys_weekAdd_eq _ _ _
    (dkeys_weekAdd_eq _ _ _ (dkeys_weekAdd_eq _ _ _ (dkeys_map_zero _)))))

theorem dget_weekAssignedOf (pre : FloorPre) (alloc : WeekAlloc)
    (hnd : (dkeys (perMapOf pre.teams)).Nodup) (p : String × ℤ)
    (hp : p ∈ perMapOf pre.teams) :
    dget (weekAssignedOf pre alloc) p.1 =
      dget (alloc.get .lunes) p.1 + dget (alloc.get .martes) p.1 +
      dget (alloc.get .miercoles) p.1 + dget (alloc.get .jueves) p.1 +
      dget (alloc.get .viernes) p.1 := by
  rw [weekAssignedOf, week_fold]
  rw [dget_weekAdd _ _ hnd p hp, dget_weekAdd _ _ hnd p hp, dget_weekAdd _ _ hnd p hp,
    dget_weekAdd _ _ hnd p hp, dget_weekAdd _ _ hnd p hp, dget_map_zero]
  ring

theorem c10per : ∀ t ∈ ([⟨"A", 3, 2⟩] : List TeamInfo), 0 ≤ t.per := by decide

theorem c10week : weekAssignedOf
    (processFloorSteps [] false "equitativo" "1" 4 2 [⟨"A", 3, 2⟩] (Rng.ofSeed none))
    (processFloorSteps [] false "equitativo" "1" 4 2 [⟨"A", 3, 2⟩] (Rng.ofSeed none)).alloc =
    [("A", 10)] := by
  rw [weekAssignedOf, week_fold]
  with_unfolding_all decide

theorem c10dot : dget (perMapOf (processFloorSteps [] false "equitativo" "1" 4 2 [⟨"A", 3, 2⟩]
    (Rng.ofSeed none)).teams) "A" = 3 := by
  with_unfolding_all decide

theorem c10exact : intQ 10 / (intQ 3 * 5) * 100 = 200 / 3 := by
  rw [intQ_eq, intQ_eq]
  norm_num

theorem c10round : pythonRound2 (intQ 10 / (intQ 3 * 5) * 100) = 6667 / 100 := by
  unfold pythonRound2
  rw [c10exact]
  have hq : (200 : ℚ) / 3 * 100 = 20000 / 3 := by norm_num
  rw [hq]
  have hf : ratFloor ((20000 : ℚ) / 3) = 6666 := by
    rw [ratFloor_eq]
    norm_num
  unfold roundHalfEvenInt
  dsimp only
  rw [hf]
  have hr : (20000 : ℚ) / 3 - intQ 6666 = 2 / 3 := by
    rw [intQ_eq]
    norm_num
  rw [hr, if_neg (by norm_num), if_pos (by norm_num), intQ_eq]
  norm_num

/-- **C10 counterexample**: on a floor with one team of headcount 3 and usable
capacity 2 the weekly summary reports `dotacion = 3`, `cuposSemana = 10`, and
a `% uso semanal` of `round(10/15*100, 2) = 66.67` — the percentage rounded to
two decimals — which differs from the exact
`weekly_total / (headcount × 5) × 100 = 200/3` required by the spec. -/
theorem claim_C10_counterexample :
    (floorCoreOf (processFloorSteps [] false "equitativo" "1" 4 2 [⟨"A", 3, 2⟩]
      (Rng.ofSeed none))).summary ≠ [] ∧
    ((floorCoreOf (processFloorSteps [] false "equitativo" "1" 4 2 [⟨"A", 3, 2⟩]
      (Rng.ofSeed none))).summary).headI.dotacion = 3 ∧
    ((floorCoreOf (processFloorSteps [] false "equitativo" "1" 4 2 [⟨"A", 3, 2⟩]
      (Rng.ofSeed none))).summary).headI.cuposSemana = 10 ∧
    ((floorCoreOf (processFloorSteps [] false "equitativo" "1" 4 2 [⟨"A", 3, 2⟩]
      (Rng.ofSeed none))).summary).headI.usoSemanal =
      pythonRound2 (intQ 10 / (intQ 3 * 5) * 100) ∧
    ¬ (((floorCoreOf (processFloorSteps [] false "equitativo" "1" 4 2 [⟨"A", 3, 2⟩]
      (Rng.ofSeed none))).summary).headI.usoSemanal =
        intQ 10 / (intQ 3 * 5) * 100) := by
  refine ⟨?_, ?_, ?_, ?_, ?_⟩ <;>
    rw [floorCoreOf_eq_noFill [] false "equitativo" "1" 4 2 [⟨"A", 3, 2⟩]
        (Rng.ofSeed none) c10per, floorCoreOfNoFill_as_finish, floorFinish_summary,
      c10week] <;>
    simp only [List.map_cons, List.map_nil, List.headI, qget]
  · simp
  · exact c10dot
  · rfl
  · rw [if_pos trivial, c10dot, if_pos (by norm_num), c10round, c10exact]
    norm_num

/-- **C10** (amended): for every floor pass (distinct team names, nonnegative
headcounts), every weekly-summary entry satisfies: `cuposSemana` is the sum of
the team's five daily allocations; `% uso semanal` is the utilization
percentage *rounded to two decimals* (`round(total / (dotacion*5) * 100, 2)`,
0 when the headcount is 0) rather than the exact quotient; and the reported
daily average equals both `round(total/5, 2)` (what the code computes) and
`round_half_up(total/5)` — the two agree because the five daily allocations
are identical, making the weekly total divisible by 5. -/
theorem claim_C10_amended_weekly (reglas : List (String × Rule)) (ign : Bool)
    (mode : String) (pisoStr : String) (capTotal reserva : ℤ) (teams : List TeamInfo)
    (rng : Rng) (hnd : (teams.map (·.eq)).Nodup) (hper : ∀ t ∈ teams, 0 ≤ t.per) :
    ∀ s ∈ (floorCoreOf (processFloorSteps reglas ign mode pisoStr capTotal reserva teams
        rng)).summary,
      s.cuposSemana =
        (diasSemana.map (fun d =>
          dget (((floorCoreOf (processFloorSteps reglas ign mode pisoStr capTotal reserva
            teams rng)).alloc).get d) s.equipo)).sum ∧
      s.usoSemanal = (if 0 < s.dotacion then
          pythonRound2 (intQ s.cuposSemana / (intQ s.dotacion * 5) * 100) else 0) ∧
      s.cuposPromedioDiario = intQ (roundHalfUp (intQ s.cuposSemana / 5)) ∧
      s.cuposPromedioDiario = pythonRound2 (intQ s.cuposSemana / 5) := by
  rw [floorCoreOf_eq_noFill reglas ign mode pisoStr capTotal reserva teams rng hper,
    floorCoreOfNoFill_as_finish]
  set pre := processFloorSteps reglas ign mode pisoStr capTotal reserva teams rng with hpre
  intro s hs
  rw [floorFinish_summary] at hs
  obtain ⟨p, hp, rfl⟩ := List.mem_map.1 hs
  dsimp only
  have hndk : (dkeys (perMapOf teams)).Nodup := perMapOf_keys_nodup teams
  have hteams : pre.teams = teams := rfl
  have hkeysW : dkeys (weekAssignedOf pre pre.alloc) = dkeys (perMapOf teams) := by
    rw [dkeys_weekAssignedOf, hteams]
  have hndW : (dkeys (weekAssignedOf pre pre.alloc)).Nodup := by
    rw [hkeysW]; exact hndk
  have hp2 : p.2 = dget (weekAssignedOf pre pre.alloc) p.1 :=
    (dget_of_mem_nodup _ p hndW hp).symm
  have hall : ∀ d, pre.alloc.get d =
      (capDayTrim (max 0 (capTotal - reserva)) (perMapOf teams)).1 := by
    intro d
    rw [hpre]
    exact steps_alloc_get_nodup reglas ign mode pisoStr capTotal reserva teams rng hnd hper d
  obtain ⟨q, hq, hq1⟩ : ∃ q ∈ perMapOf teams, q.1 = p.1 := by
    have hk := mem_dkeys_of_mem _ p hp
    rw [hkeysW] at hk
    obtain ⟨q, hq, hq1⟩ := List.mem_map.1 hk
    exact ⟨q, hq, hq1⟩
  have hsum : dget (weekAssignedOf pre pre.alloc) p.1 =
      5 * dget (capDayTrim (max 0 (capTotal - reserva)) (perMapOf teams)).1 p.1 := by
    rw [← hq1, dget_weekAssignedOf pre pre.alloc (hteams ▸ hndk) q hq]
    simp only [hall]
    ring
  refine ⟨?_, ?_, ?_, rfl⟩
  · rw [floorFinish_alloc]
    simp only [diasSemana, List.map_cons, List.map_nil, List.sum_cons, List.sum_nil,
      hall, hp2, hsum]
    ring
  · rw [qget_map_of_mem_nodup _ _ p hndW hp]
  · have h5 : intQ p.2 / 5 =
        intQ (dget (capDayTrim (max 0 (capTotal - reserva)) (perMapOf teams)).1 p.1) := by
      rw [hp2, hsum, intQ_eq, intQ_eq]
      push_cast
      ring_nf
    rw [h5, pythonRound2_intQ, roundHalfUp_intQ]

theorem c10ne : (floorCoreOf (processFloorSteps [] false "equitativo" "1" 4 2 [⟨"A", 3, 2⟩]
      (Rng.ofSeed none))).summary ≠ [] := by
  rw [floorCoreOf_eq_noFill [] false "equitativo" "1" 4 2 [⟨"A", 3, 2⟩]
      (Rng.ofSeed none) c10per, floorCoreOfNoFill_as_finish, floorFinish_summary, c10week]
  simp

theorem claim_C10_amended_weekly_witness :
    ((([⟨"A", 3, 2⟩] : List TeamInfo).map (·.eq)).Nodup ∧
      (∀ t ∈ ([⟨"A", 3, 2⟩] : List TeamInfo), 0 ≤ t.per) ∧
      ((floorCoreOf (processFloorSteps [] false "equitativo" "1" 4 2 [⟨"A", 3, 2⟩]
      (Rng.ofSeed none))).summary).headI ∈ ((floorCoreOf (processFloorSteps [] false "equitativo" "1" 4 2 [⟨"A", 3, 2⟩]
      (Rng.ofSeed none))).summary)) ∧
    (((floorCoreOf (processFloorSteps [] false "equitativo" "1" 4 2 [⟨"A", 3, 2⟩]
      (Rng.ofSeed none))).summary).headI.cuposSemana =
        (diasSemana.map (fun d =>
          dget (((floorCoreOf (processFloorSteps [] false "equitativo" "1" 4 2 [⟨"A", 3, 2⟩]
      (Rng.ofSeed none))).alloc).get d) ((floorCoreOf (processFloorSteps [] false "equitativo" "1" 4 2 [⟨"A", 3, 2⟩]
      (Rng.ofSeed none))).summary).headI.equipo)).sum ∧
      ((floorCoreOf (processFloorSteps [] false "equitativo" "1" 4 2 [⟨"A", 3, 2⟩]
      (Rng.ofSeed none))).summary).headI.usoSemanal = (if 0 < ((floorCoreOf (processFloorSteps [] false "equitativo" "1" 4 2 [⟨"A", 3, 2⟩]
      (Rng.ofSeed none))).summary).headI.dotacion then
          pythonRound2 (intQ ((floorCoreOf (processFloorSteps [] false "equitativo" "1" 4 2 [⟨"A", 3, 2⟩]
      (Rng.ofSeed none))).summary).headI.cuposSemana /
            (intQ ((floorCoreOf (processFloorSteps [] false "equitativo" "1" 4 2 [⟨"A", 3, 2⟩]
      (Rng.ofSeed none))).summary).headI.dotacion * 5) * 100) else 0) ∧
      ((floorCoreOf (processFloorSteps [] false "equitativo" "1" 4 2 [⟨"A", 3, 2⟩]
      (Rng.ofSeed none))).summary).headI.cuposPromedioDiario =
        intQ (roundHalfUp (intQ ((floorCoreOf (processFloorSteps [] false "equitativo" "1" 4 2 [⟨"A", 3, 2⟩]
      (Rng.ofSeed none))).summary).headI.cuposSemana / 5)) ∧
      ((floorCoreOf (processFloorSteps [] false "equitativo" "1" 4 2 [⟨"A", 3, 2⟩]
      (Rng.ofSeed none))).summary).headI.cuposPromedioDiario =
        pythonRound2 (intQ ((floorCoreOf (processFloorSteps [] false "equitativo" "1" 4 2 [⟨"A", 3, 2⟩]
      (Rng.ofSeed none))).summary).headI.cuposSemana / 5)) :=
  ⟨⟨by decide, by decide, headI_mem_of_ne _ c10ne⟩,
    claim_C10_amended_weekly [] false "equitativo" "1" 4 2 [⟨"A", 3, 2⟩] (Rng.ofSeed none)
      (by decide) (by decide) _ (headI_mem_of_ne _ c10ne)⟩
